import Mathlib

/-!
exprego: router, request parsing, request/response and content negotiation.

A shallow embedding of `router.go`, `request-response.go` and the request
parsing and content negotiation parts of `main.go`, followed by the properties
proved about it.

Conventions of the embedding:

* A Go `string` / `[]byte` is an immutable byte sequence.  It is modelled as the
  list of its bytes, each byte carried by the character with the same code
  (so ASCII text is written as itself and `len` is `List.length`).
* A Go `map[string]V` is an association list with distinct keys
  (`mapGet`, `mapSet`); the order in which `range` visits a map is not fixed by
  the language and is passed in explicitly where the code iterates a map.
* A `panic` is an explicit outcome; pointers to routes, slugs and headers are
  never nil and never mutated after creation, so they are modelled by value.
-/

namespace Exprego

/-! ## Strings -/

/-- Go `string` and `[]byte`: a sequence of bytes. -/
abbrev GoString := List Char

/-- Go `strings.Index(s, sep)`: position of the first occurrence of `sep` in `s`. -/
def Index : GoString → GoString → Option Nat
  | [], sep => if sep = [] then some 0 else none
  | c :: t, sep =>
    if sep.isPrefixOf (c :: t) then some 0 else (Index t sep).map (· + 1)

/-- The loop of Go's `strings.genSplit` for a non-empty separator: cut at the
first occurrence of `sep`, keep `sepSave` bytes of the separator in the piece,
continue after the separator.  The first argument bounds the number of cuts. -/
def genSplitLoop (sep : GoString) (sepSave : Nat) : Nat → GoString → List GoString
  | 0, s => [s]
  | n + 1, s =>
    match Index s sep with
    | none => [s]
    | some m => s.take (m + sepSave) :: genSplitLoop sep sepSave n (s.drop (m + sep.length))

/-- Go `strings.genSplit(s, sep, sepSave, -1)` for a non-empty separator.  Go
bounds the cuts by `Count(s, sep)`; `len(s)` is never smaller. -/
def genSplit (s sep : GoString) (sepSave : Nat) : List GoString :=
  genSplitLoop sep sepSave s.length s

/-- Go `strings.Split` (and `bytes.Split`). -/
def Split (s sep : GoString) : List GoString := genSplit s sep 0

/-- Go `strings.SplitAfter`. -/
def SplitAfter (s sep : GoString) : List GoString := genSplit s sep sep.length

/-! ## Router data model (`router.go`) -/

/-- The `HttpVerb` constants. -/
inductive HttpVerb where
  | GET | POST | PATCH | PUT | DELETE
  deriving DecidableEq, Repr

/-- The `SlugType` constants. -/
inductive SlugType where
  | LITERAL | WILDCART
  deriving DecidableEq, Repr

/-- One path part of a subscribed route. -/
structure Slug where
  sType : SlugType
  value : GoString
  name : GoString
  deriving DecidableEq, Repr

/-- Go map with string keys, as an association list. -/
abbrev GoMap (V : Type) := List (GoString × V)

/-- Map read `m[k]` with the presence flag. -/
def mapGet {V : Type} : GoMap V → GoString → Option V
  | [], _ => none
  | (k', v) :: t, k => if k' = k then some v else mapGet t k

/-- Map write `m[k] = v`. -/
def mapSet {V : Type} : GoMap V → GoString → V → GoMap V
  | [], k, v => [(k, v)]
  | (k', v') :: t, k, v => if k' = k then (k, v) :: t else (k', v') :: mapSet t k v

/-- The keys of a map. -/
def mapKeys {V : Type} (m : GoMap V) : List GoString := m.map Prod.fst

/-- A request, as in `request-response.go`. -/
structure Request where
  method : HttpVerb
  path : GoString
  Slugs : GoMap GoString
  searchParams : GoMap GoString
  Headers : GoMap GoString
  Body : GoString
  Context : GoMap GoString

/-- A response header. -/
structure Header where
  name : GoString
  value : GoString
  deriving DecidableEq, Repr

/-- A response, as in `request-response.go`; `Status` is an `int16`. -/
structure Response where
  Status : Int
  Body : GoString
  Headers : GoMap Header

/-- The type of handlers: they may change the request and the response. -/
abbrev routeHandler := Request → Response → Request × Response

/-- A subscribed route. -/
structure Route where
  method : HttpVerb
  path : GoString
  slugs : List Slug
  handler : routeHandler

/-- The router; `paths` is keyed by `uint16`, an absent key reads as the empty
slice. -/
structure Router where
  paths : Nat → List Route
  notFound : routeHandler
  malformed : routeHandler
  strictSlash : Bool

/-- Conversion `uint16(n)` of a length. -/
def toUint16 (n : Nat) : Nat := n % 65536

/-- `Response.SetStatus`. -/
def Response.SetStatus (res : Response) (status : Int) : Response :=
  { res with Status := status }

/-- Handler `defaultNotFound`. -/
def defaultNotFound : routeHandler := fun req res => (req, res.SetStatus 404)

/-- Handler `defaultMalformed`. -/
def defaultMalformed : routeHandler := fun req res => (req, res.SetStatus 400)

/-- `NewRouter`. -/
def NewRouter : Router :=
  { paths := fun _ => [], notFound := defaultNotFound, malformed := defaultMalformed,
    strictSlash := true }

/-- `getSlugType`: compares the first and the last byte with the brackets. -/
def getSlugType (slug : GoString) : SlugType :=
  if slug.length = 0 then SlugType.LITERAL
  else if slug.head? = some '[' ∧ slug.getLast? = some ']' then SlugType.WILDCART
  else SlugType.LITERAL

/-- `getSlugName`; the slice `value[1 : len(value)-1]` panics (`none`) when
`len(value) < 2`, that is when `1 > len(value)-1`. -/
def getSlugName (value : GoString) (sType : SlugType) : Option GoString :=
  match sType with
  | SlugType.LITERAL => some value
  | SlugType.WILDCART =>
    if 2 ≤ value.length then some ((value.take (value.length - 1)).drop 1)
    else none

/-- The loop of `newRoute` building the slugs; `none` is a panic of
`getSlugName`. -/
def newRouteSlugs : List GoString → Option (List Slug)
  | [] => some []
  | s :: rest =>
    let t := getSlugType s
    match getSlugName s t with
    | none => none
    | some n =>
      match newRouteSlugs rest with
      | none => none
      | some slgs => some ({ sType := t, value := s, name := n } :: slgs)

/-- `newRoute`. -/
def newRoute (path : GoString) (method : HttpVerb) (slugNames : List GoString)
    (handler : routeHandler) : Option Route :=
  match newRouteSlugs slugNames with
  | none => none
  | some slgs => some { path := path, method := method, slugs := slgs, handler := handler }

/-- `Slug.doesMatch`. -/
def Slug.doesMatch (s : Slug) (str : GoString) : Bool :=
  if s.sType = SlugType.LITERAL then decide (s.value = str) else true

instance : Inhabited Slug := ⟨{ sType := SlugType.LITERAL, value := [], name := [] }⟩

/-- The inner loop of `findHandler` over the remaining indices `iEl`; `true`
means `return bro`, `false` means the loop was left by `break` or ran out. -/
def findHandlerSegs (bro : Route) (method : HttpVerb) (elements : List GoString) :
    List Nat → Bool
  | [] => false
  | iEl :: rest =>
    if bro.method ≠ method then false
    else if !(bro.slugs.getD iEl default).doesMatch (elements.getD iEl []) then false
    else if iEl = elements.length - 1 then true
    else findHandlerSegs bro method elements rest

/-- The outer loop of `findHandler` over the bucket. -/
def findHandlerBros (method : HttpVerb) (elements : List GoString) :
    List Route → Option Route
  | [] => none
  | bro :: rest =>
    if bro.slugs.length ≠ elements.length then findHandlerBros method elements rest
    else if findHandlerSegs bro method elements (List.range elements.length) then some bro
    else findHandlerBros method elements rest

/-- `Router.findHandler`; `none` is the nil route. -/
def Router.findHandler (r : Router) (req : Request) : Option Route :=
  let elements := Split req.path ['/']
  findHandlerBros req.method elements (r.paths (toUint16 elements.length))

/-- Outcome of a call that may panic: the panic message, if any. -/
abbrev Panic := Option GoString

/-- The duplicate search of `Suscribe` over the siblings. -/
def alreadySuscribed (method : HttpVerb) (p : GoString) (siblings : List Route) : Bool :=
  siblings.any (fun s => decide (s.path = p) && decide (s.method = method))

/-- `Router.Suscribe`: returns the panic, if any, and the router afterwards. -/
def Router.Suscribe (r : Router) (method : HttpVerb) (p : GoString) (f : routeHandler) :
    Panic × Router :=
  let elements := Split p ['/']
  if "[]".toList ∈ elements then
    (some (p ++ " is not a valid path. Dont use empty slugs".toList), r)
  else
    let idxLvl := toUint16 elements.length
    let siblings := r.paths idxLvl
    if alreadySuscribed method p siblings then
      (some (p ++ " is already suscribed".toList), r)
    else
      match newRoute p method elements f with
      | none => (some "slice bounds out of range".toList, r)
      | some route =>
        (none, { r with paths := fun k => if k = idxLvl then r.paths idxLvl ++ [route]
                                           else r.paths k })

/-! ## Slug binding (`request-response.go`) -/

/-- The loop of `parseSlugs` over the indices `i`, acting on the `Slugs` map. -/
def parseSlugsLoop (slugs : List Slug) (pathElements : List GoString) :
    List Nat → GoMap GoString → GoMap GoString
  | [], m => m
  | i :: rest, m =>
    let slg := slugs.getD i default
    if slg.sType = SlugType.LITERAL ∨ slg.name = [] then
      parseSlugsLoop slugs pathElements rest m
    else
      parseSlugsLoop slugs pathElements rest (mapSet m slg.name (pathElements.getD i []))

/-- `Request.parseSlugs`: the error, if any, and the request afterwards. -/
def Request.parseSlugs (req : Request) (route : Route) : Option GoString × Request :=
  if route.slugs.length ≠ (Split req.path ['/']).length then
    (some "Didnt match the path with slugs amount.".toList, req)
  else
    let pathElements := Split req.path ['/']
    let bound :=
      parseSlugsLoop route.slugs pathElements (List.range route.slugs.length) req.Slugs
    (none, { req with Slugs := bound })

/-! ## Responses and their serialization (`request-response.go`) -/

/-- Outcome of a call that returns an `error` and may also panic. -/
inductive Result (α : Type) where
  | ok : α → Result α
  | err : GoString → Result α
  | panic : GoString → Result α
  deriving DecidableEq

/-- The verb `%d` of `fmt.Sprintf` on an integer. -/
def fmtInt (n : Int) : GoString :=
  if n < 0 then '-' :: Nat.toDigits 10 n.natAbs else Nat.toDigits 10 n.toNat

/-- The entries written into the map of `statusCodeToMsg`. -/
def statusTable : List (Int × String) :=
  [(100, "Continue"), (101, "Switching Protocols"), (102, "Processing"),
   (103, "Early Hints"), (200, "OK"), (201, "Created"), (202, "Accepted"),
   (203, "Non-Authoritative Information"), (204, "No Content"), (205, "Reset Content"),
   (206, "Partial Content"), (207, "Multi-Status"), (208, "Already Reported"),
   (226, "IM Used"), (300, "Multiple Choices"), (301, "Moved Permanently"),
   (302, "Found"), (303, "See Other"), (304, "Not Modified"),
   (307, "Temporary Redirect"), (308, "Permanent Redirect"), (400, "Bad Request"),
   (401, "Unauthorized"), (402, "Payment Required"), (403, "Forbidden"),
   (404, "Not Found"), (405, "Method Not Allowed"), (406, "Not Acceptable"),
   (407, "Proxy Authentication Required"), (408, "Request Timeout"), (409, "Conflict"),
   (410, "Gone"), (411, "Length Required"), (412, "Precondition Failed"),
   (413, "Content Too Large"), (414, "URI Too Long"), (415, "Unsupported Media Type"),
   (416, "Range Not Satisfiable"), (417, "Expectation Failed"), (418, "I'm a teapot"),
   (421, "Misdirected Request"), (422, "Unprocessable Content"), (423, "Locked"),
   (424, "Failed Dependency"), (425, "Too Early"), (426, "Upgrade Required"),
   (428, "Precondition Required"), (429, "Too Many Requests"),
   (431, "Request Header Fields Too Large"), (451, "Unavailable For Legal Reasons"),
   (500, "Internal Server Error"), (501, "Not Implemented"), (502, "Bad Gateway"),
   (503, "Service Unavailable"), (504, "Gateway Timeout"),
   (505, "HTTP Version Not Supported"), (506, "Variant Also Negotiates"),
   (507, "Insufficient Storage"), (508, "Loop Detected"), (510, "Not Extended"),
   (511, "Network Authentication Required")]

/-- `statusCodeToMsg`: the reason phrase and the presence flag. -/
def statusCodeToMsg (status : Int) : Option GoString :=
  (statusTable.find? (fun e => decide (e.1 = status))).map (fun e => e.2.toList)

/-- The `MimeType` constants. -/
inductive MimeType where
  | TEXT_PLAIN | JSON | OCTEC_STREAM
  deriving DecidableEq, Repr

/-- `mimeTypes`; every constant has an entry. -/
def mimeTypes (mime : MimeType) : Option GoString :=
  match mime with
  | MimeType.TEXT_PLAIN => some "text/plain".toList
  | MimeType.JSON => some "application/json".toList
  | MimeType.OCTEC_STREAM => some "application/octet-stream".toList

/-- `newHeader`. -/
def newHeader (name value : GoString) : Header := { name := name, value := value }

/-- `Header.toString`. -/
def Header.toString (h : Header) : GoString := h.name ++ ": ".toList ++ h.value ++ "\r\n".toList

/-- `Response.setHeader`. -/
def Response.setHeader (r : Response) (name value : GoString) : Response :=
  { r with Headers := mapSet r.Headers name (newHeader name value) }

/-- `Response.SetContentType`. -/
def Response.SetContentType (r : Response) (mt : MimeType) : Response :=
  let ct := match mimeTypes mt with
    | some ct => ct
    | none => (mimeTypes MimeType.TEXT_PLAIN).getD []
  { r with Headers :=
      (mapSet r.Headers "Content-Type".toList (newHeader "Content-Type".toList ct)) }

/-- `newResponse`. -/
def newResponse : Response :=
  Response.SetContentType { Status := 200, Body := [], Headers := [] } MimeType.TEXT_PLAIN

/-- `Response.calcContentLength`. -/
def Response.calcContentLength (r : Response) : Response :=
  r.setHeader "Content-Length".toList (fmtInt r.Body.length)

/-- The header loop of `serialize`: `iter` is the sequence of keys produced by
`range res.Headers`; `none` is the nil dereference of a key without entry. -/
def serializeHeaders (headers : GoMap Header) : List GoString → GoString → Option GoString
  | [], s => some s
  | h :: rest, s =>
    match mapGet headers h with
    | none => none
    | some hd => serializeHeaders headers rest (s ++ hd.toString)

/-- `Response.serialize`; `iter` is the order in which `range` yields the keys
of the header map. -/
def Response.serialize (res : Response) (iter : List GoString) : Result GoString :=
  let buffer := "HTTP/1.1 ".toList
  match statusCodeToMsg res.Status with
  | none => Result.err "Not supported code".toList
  | some statusMsg =>
    let buffer := buffer ++ (fmtInt res.Status ++ " ".toList ++ statusMsg ++ "\r\n".toList)
    let afterHeaders : Option GoString :=
      if res.Headers.length ≠ 0 then
        match serializeHeaders res.Headers iter [] with
        | none => none
        | some s => some (buffer ++ (s ++ "\r\n".toList))
      else some buffer
    match afterHeaders with
    | none => Result.panic "nil pointer dereference".toList
    | some buffer =>
      let buffer := if res.Body.length ≠ 0 then buffer ++ res.Body ++ "\r\n".toList else buffer
      Result.ok (buffer ++ "\r\n".toList)

/-! ## Content negotiation (`main.go`) -/

/-- The ASCII white space of Go's `strings.TrimSpace`, by byte value: tab, line
feed, vertical tab, form feed, carriage return, space. -/
def asciiSpace (c : Char) : Bool :=
  c.toNat = 9 || c.toNat = 10 || c.toNat = 11 || c.toNat = 12 || c.toNat = 13 ||
    c.toNat = 32

/-- Two bytes that are the UTF-8 encoding of a white space rune (U+0085, U+00A0). -/
def isSpace2 (a b : Char) : Bool :=
  a.toNat = 0xC2 && (b.toNat = 0x85 || b.toNat = 0xA0)

/-- Three bytes that are the UTF-8 encoding of a white space rune (U+1680,
U+2000 to U+200A, U+2028, U+2029, U+202F, U+205F, U+3000). -/
def isSpace3 (a b c : Char) : Bool :=
  (a.toNat = 0xE1 && b.toNat = 0x9A && c.toNat = 0x80) ||
  (a.toNat = 0xE2 && b.toNat = 0x80 &&
    ((0x80 ≤ c.toNat && c.toNat ≤ 0x8A) || c.toNat = 0xA8 || c.toNat = 0xA9 ||
      c.toNat = 0xAF)) ||
  (a.toNat = 0xE2 && b.toNat = 0x81 && c.toNat = 0x9F) ||
  (a.toNat = 0xE3 && b.toNat = 0x80 && c.toNat = 0x80)

/-- Go `strings.TrimLeftFunc(s, unicode.IsSpace)`: drops the leading white space
runes; a byte sequence that is not the encoding of a white space rune stops it. -/
def trimLeftSpace : GoString → GoString
  | [] => []
  | [a] => if asciiSpace a then [] else [a]
  | [a, b] =>
    if asciiSpace a then trimLeftSpace [b]
    else if isSpace2 a b then [] else [a, b]
  | a :: b :: c :: t =>
    if asciiSpace a then trimLeftSpace (b :: c :: t)
    else if isSpace2 a b then trimLeftSpace (c :: t)
    else if isSpace3 a b c then trimLeftSpace t
    else a :: b :: c :: t

/-- The same scan on the reversed string: drops the trailing white space runes,
read from the last byte backwards. -/
def trimRightSpaceRev : GoString → GoString
  | [] => []
  | [a] => if asciiSpace a then [] else [a]
  | [a, b] =>
    if asciiSpace a then trimRightSpaceRev [b]
    else if isSpace2 b a then [] else [a, b]
  | a :: b :: c :: t =>
    if asciiSpace a then trimRightSpaceRev (b :: c :: t)
    else if isSpace2 b a then trimRightSpaceRev (c :: t)
    else if isSpace3 c b a then trimRightSpaceRev t
    else a :: b :: c :: t

/-- Go `strings.TrimSpace`. -/
def TrimSpace (s : GoString) : GoString :=
  (trimRightSpaceRev (trimLeftSpace s).reverse).reverse

/-- Go `strings.TrimSuffix`. -/
def TrimSuffix (s suffix : GoString) : GoString :=
  if suffix.isSuffixOf s then s.take (s.length - suffix.length) else s

/-- The token compared in both negotiation loops:
`strings.TrimSuffix(strings.TrimSpace(enc), ",")`. -/
def encodingToken (enc : GoString) : GoString := TrimSuffix (TrimSpace enc) [',']

/-- The loop of `isEncodingSupported`. -/
def isEncodingSupportedLoop : List GoString → Bool
  | [] => false
  | enc :: rest =>
    if "gzip".toList = encodingToken enc then true else isEncodingSupportedLoop rest

/-- `isEncodingSupported`. -/
def isEncodingSupported (encoding : GoString) : Bool :=
  isEncodingSupportedLoop (SplitAfter encoding ", ".toList)

/-- The loop of `selectUsedEncoding`, with the variable `usedEncoding`. -/
def selectUsedEncodingLoop : List GoString → GoString → GoString
  | [], usedEncoding => usedEncoding
  | enc :: rest, usedEncoding =>
    let e := encodingToken enc
    if "gzip".toList = e then e
    else selectUsedEncodingLoop rest (if usedEncoding = [] then e else usedEncoding)

/-- `selectUsedEncoding`. -/
def selectUsedEncoding (encodingHeader : GoString) : GoString :=
  selectUsedEncodingLoop (SplitAfter encodingHeader [',']) []

/-- The type `Encoder`: the new body or an error. -/
abbrev Encoder := GoString → Except GoString GoString

/-- `getEncodingFunction`; `none` is the nil function.  The gzip encoder
`encodeBody` wraps the library `compress/gzip` and is a parameter. -/
def getEncodingFunction (encodeBody : Encoder) (usedEncoding : GoString) : Option Encoder :=
  if usedEncoding = "gzip".toList then some encodeBody else none

/-- The body of `compressContent` up to its `return`, without the deferred call. -/
def compressContentBody (encodeBody : Encoder) (req : Request) (res : Response) :
    Result Unit × Response :=
  match mapGet req.Headers "Accept-Encoding".toList with
  | none => (Result.ok (), res)
  | some encoding =>
    if !isEncodingSupported encoding then (Result.ok (), res)
    else
      let usedEncoding := selectUsedEncoding encoding
      match getEncodingFunction encodeBody usedEncoding with
      | none => (Result.panic "nil pointer dereference".toList, res)
      | some encoder =>
        match encoder res.Body with
        | Except.error e => (Result.err e, res)
        | Except.ok newBody =>
          let res1 : Response := { res with Body := newBody }
          let res2 := res1.calcContentLength
          (Result.ok (), res2.setHeader "Content-Encoding".toList usedEncoding)

/-- `compressContent`: the deferred `calcContentLength` runs on every way out. -/
def compressContent (encodeBody : Encoder) (req : Request) (res : Response) :
    Result Unit × Response :=
  let out := compressContentBody encodeBody req res
  (out.1, out.2.calcContentLength)

/-- A run of encoded white space runes, read forwards. -/
inductive SpRun : GoString → Prop where
  | nil : SpRun []
  | one (a : Char) (w : GoString) : asciiSpace a = true → SpRun w → SpRun (a :: w)
  | two (a b : Char) (w : GoString) : isSpace2 a b = true → SpRun w → SpRun (a :: b :: w)
  | three (a b c : Char) (w : GoString) :
      isSpace3 a b c = true → SpRun w → SpRun (a :: b :: c :: w)

/-- A run of encoded white space runes, read backwards. -/
inductive SpRunRev : GoString → Prop where
  | nil : SpRunRev []
  | one (a : Char) (w : GoString) : asciiSpace a = true → SpRunRev w → SpRunRev (a :: w)
  | two (a b : Char) (w : GoString) :
      isSpace2 b a = true → SpRunRev w → SpRunRev (a :: b :: w)
  | three (a b c : Char) (w : GoString) :
      isSpace3 c b a = true → SpRunRev w → SpRunRev (a :: b :: c :: w)

/-- A byte that is neither ASCII white space nor part of a multi-byte rune. -/
def plainByte (c : Char) : Prop := asciiSpace c = false ∧ c.toNat < 0x80

/-- `Router.handleRequest`: the request and response left by the handler that
was run. -/
def Router.handleRequest (r : Router) (req : Request) (res : Response) :
    Request × Response :=
  match r.findHandler req with
  | none => r.notFound req res
  | some routeHandler =>
    match req.parseSlugs routeHandler with
    | (some _, req1) => r.malformed req1 res
    | (none, req1) => routeHandler.handler req1 res

/-! ## Request parsing (`main.go`) -/

/-- The constant `MAX_REQUEST_SIZE = 5.12 * 10e5`, an untyped constant of exact
arithmetic, used as the length of the receive buffer. -/
def MAX_REQUEST_SIZE : ℚ := 5.12 * 10e5

/-- `parseReqLine`. -/
def parseReqLine (reqLine : GoString) : Except GoString (List GoString) :=
  let reqLineParts := Split reqLine [' ']
  if reqLineParts.length ≠ 3 then Except.error "Malformed request from \n".toList
  else
    let method := reqLineParts.getD 0 []
    let path := reqLineParts.getD 1 []
    let httpVersion := reqLineParts.getD 2 []
    Except.ok [method, path, httpVersion]

/-- `httpVerbfromString`; `none` is its panic on a verb it does not know. -/
def httpVerbfromString (method : GoString) : Option HttpVerb :=
  if method = "GET".toList then some HttpVerb.GET
  else if method = "POST".toList then some HttpVerb.POST
  else if method = "PATCH".toList then some HttpVerb.PATCH
  else if method = "PUT".toList then some HttpVerb.PUT
  else if method = "DELETE".toList then some HttpVerb.DELETE
  else none

/-- `newRequest`: empty maps, the zero verb and the empty path. -/
def newRequest : Request :=
  { method := HttpVerb.GET, path := [], Slugs := [], searchParams := [], Headers := [],
    Body := [], Context := [] }

/-- The body of the header loop of `handleConnection` on one line:
`hParts := strings.Split(line, ":")`, `hName := hParts[0]`,
`hValue := hParts[1][1:]`; `none` is the panic of the index or of the slice. -/
def parseHeaderLine (line : GoString) : Option (GoString × GoString) :=
  match Split line [':'] with
  | hName :: hv :: _ => if hv.length < 1 then none else some (hName, hv.drop 1)
  | _ => none

/-- The header loop of `handleConnection` over the indices `i` of
`range reqParts[1:]`: it returns `headersDividers` and the header map, `none` is
a panic. -/
def headersLoop (reqParts : List GoString) :
    List Nat → GoMap GoString → Option (Int × GoMap GoString)
  | [], hs => some (-1, hs)
  | i :: rest, hs =>
    if i = 0 then headersLoop reqParts rest hs
    else if reqParts.getD i [] = [] then some ((i : Int), hs)
    else
      match parseHeaderLine (reqParts.getD i []) with
      | none => none
      | some (hName, hValue) => headersLoop reqParts rest (mapSet hs hName hValue)

/-- How the parsing part of `handleConnection` ends: it returns before the router
is called, or it panics, or it hands a request to the router. -/
inductive ParseOutcome where
  | aborted : GoString → ParseOutcome
  | panicked : GoString → ParseOutcome
  | parsed : Request → ParseOutcome

/-- The part of `handleConnection` from the read of `buffer` (the bytes read) up
to the call of the router. -/
def handleConnectionParse (context : GoMap GoString) (buffer : GoString) : ParseOutcome :=
  let req : Request := { newRequest with Context := context }
  if buffer.length = 0 then ParseOutcome.aborted "Empty connection".toList
  else
    let reqParts := Split buffer "\r\n".toList
    if reqParts.length = 0 then ParseOutcome.aborted "Malformed request".toList
    else
      match parseReqLine (reqParts.getD 0 []) with
      | Except.error e => ParseOutcome.aborted e
      | Except.ok parts =>
        let method := parts.getD 0 []
        let path := parts.getD 1 []
        let httpVersion := parts.getD 2 []
        if httpVersion ≠ "HTTP/1.1".toList then
          ParseOutcome.aborted "HTTP version is not supported".toList
        else
          match httpVerbfromString method with
          | none => ParseOutcome.panicked "NOT SUPPORTED VERB".toList
          | some verb =>
            let req : Request := { req with path := path, method := verb }
            match headersLoop reqParts (List.range (reqParts.length - 1)) req.Headers with
            | none => ParseOutcome.panicked "index out of range".toList
            | some (headersDividers, hs) =>
              let req : Request := { req with Headers := hs }
              if (reqParts.length : Int) > headersDividers then
                let body := reqParts.drop (headersDividers + 1).toNat
                match body with
                | [] => ParseOutcome.panicked "index out of range".toList
                | _ :: _ => ParseOutcome.parsed { req with Body := body.flatten }
              else ParseOutcome.parsed req

/-- A header line the loop can read: a `:` follows the name and the byte after
that first `:` is not a `:` again. -/
def HeaderLineOk (line : GoString) : Prop :=
  ∃ name c rest, line = name ++ ':' :: c :: rest ∧ ':' ∉ name ∧ c ≠ ':'

/-- The selection rule on trimmed tokens: `gzip` when it is among them, else the
variable `usedEncoding` when it is set, else the first non-empty token. -/
def selectByTokens (tokens : List GoString) (usedEncoding : GoString) : GoString :=
  if "gzip".toList ∈ tokens then "gzip".toList
  else if usedEncoding ≠ [] then usedEncoding
  else (tokens.find? (fun t => decide (t ≠ []))).getD []

/-- The text with every `\r\n` taken out, in one pass from the left (Go
`strings.ReplaceAll(s, "\r\n", "")`). -/
def removeCRLF : GoString → GoString
  | [] => []
  | [c] => [c]
  | c :: d :: t =>
    if c = '\r' ∧ d = '\n' then removeCRLF t else c :: removeCRLF (d :: t)

/-- The bucket table after a successful `Suscribe`. -/
def pathsAfter (r : Router) (p : GoString) (route : Route) : Nat → List Route :=
  fun k => if k = toUint16 (Split p ['/']).length
    then r.paths (toUint16 (Split p ['/']).length) ++ [route] else r.paths k

/-- `range m` yields every key of the map once, in an order of its own. -/
def RangeOrder {V : Type} (m : GoMap V) (iter : List GoString) : Prop :=
  iter.Perm (mapKeys m) ∧ (mapKeys m).Nodup

/-! ## Specification predicates -/

/-- The routers built from `NewRouter` by `Suscribe` calls (a rejected call
leaves the router as it was). -/
inductive Reachable : Router → Prop where
  | new : Reachable NewRouter
  | suscribe (r : Router) (m : HttpVerb) (p : GoString) (f : routeHandler) :
      Reachable r → Reachable (r.Suscribe m p f).2

/-- Some stored route has this verb and this pattern string. -/
def Registered (r : Router) (m : HttpVerb) (p : GoString) : Prop :=
  ∃ k route, route ∈ r.paths k ∧ route.method = m ∧ route.path = p


/-- A route answers a verb and a list of path segments: same verb, and every
slug matches the segment at the same position (so the counts agree). -/
def Route.Matches (bro : Route) (method : HttpVerb) (elements : List GoString) : Prop :=
  bro.method = method ∧
    List.Forall₂ (fun (s : Slug) (e : GoString) => s.doesMatch e = true) bro.slugs elements

/-- A request with the given verb and path and nothing else set. -/
def requestOf (method : HttpVerb) (path : GoString) : Request :=
  { method := method, path := path, Slugs := [], searchParams := [], Headers := [],
    Body := [], Context := [] }

/-! ## Lemmas on splitting -/

theorem genSplitLoop_ne_nil (sep : GoString) (k n : Nat) (s : GoString) :
    genSplitLoop sep k n s ≠ [] := by
  cases n with
  | zero => simp [genSplitLoop]
  | succ n =>
    unfold genSplitLoop
    cases Index s sep <;> simp

/-- The bound `len(s)` on the number of cuts is never reached before the
separator runs out: more fuel gives the same pieces. -/
theorem genSplitLoop_fuel (sep : GoString) (k : Nat) (hsep : sep ≠ []) (n : Nat) :
    ∀ s : GoString, s.length ≤ n →
      genSplitLoop sep k (n + 1) s = genSplitLoop sep k n s := by
  induction n with
  | zero =>
    intro s hs
    have hnil : s = [] := List.length_eq_zero.mp (by omega)
    subst hnil
    simp [genSplitLoop, Index, hsep]
  | succ n ih =>
    intro s hs
    rw [genSplitLoop, genSplitLoop]
    cases hI : Index s sep with
    | none => rfl
    | some m =>
      simp only []
      have hpos : 0 < sep.length := List.length_pos.mpr hsep
      rw [ih]
      simp only [List.length_drop]
      omega

theorem Split_ne_nil (s sep : GoString) : Split s sep ≠ [] :=
  genSplitLoop_ne_nil sep 0 s.length s

theorem Index_some (sep : GoString) :
    ∀ (s : GoString) (m : Nat), Index s sep = some m →
      ∃ x y, s = x ++ sep ++ y ∧ x.length = m := by
  intro s
  induction s with
  | nil =>
    intro m h
    by_cases hsep : sep = []
    · simp only [Index, hsep, if_true, Option.some.injEq] at h
      exact ⟨[], [], by simp [hsep], h⟩
    · simp [Index, hsep] at h
  | cons c t ih =>
    intro m h
    by_cases hp : sep.isPrefixOf (c :: t) = true
    · simp only [Index, hp, if_true, Option.some.injEq] at h
      obtain ⟨y, hy⟩ := List.isPrefixOf_iff_prefix.mp hp
      exact ⟨[], y, by simp [hy], h⟩
    · simp only [Index, hp, Bool.false_eq_true, if_false, Option.map_eq_some'] at h
      obtain ⟨m', hm', hmm⟩ := h
      obtain ⟨x, y, hxy, hx⟩ := ih m' hm'
      exact ⟨c :: x, y, by simp [hxy], by simp [hx, hmm]⟩

theorem Index_char_first (c : Char) (x y : GoString) (hx : c ∉ x) :
    Index (x ++ c :: y) [c] = some x.length := by
  induction x with
  | nil => simp [Index, List.isPrefixOf]
  | cons a t ih =>
    have hac : a ≠ c := fun h => hx (h ▸ List.mem_cons_self _ _)
    have ht : c ∉ t := fun h => hx (List.mem_cons_of_mem _ h)
    have hc : c ≠ a := fun h => hac h.symm
    simp [Index, List.isPrefixOf, hc, ih ht]

theorem Index_char_none (c : Char) (s : GoString) (h : c ∉ s) : Index s [c] = none := by
  induction s with
  | nil => simp [Index]
  | cons a t ih =>
    have hac : c ≠ a := fun e => h (e ▸ List.mem_cons_self _ _)
    have ht : c ∉ t := fun e => h (List.mem_cons_of_mem _ e)
    simp [Index, List.isPrefixOf, hac, ih ht]

/-- Every piece of `SplitAfter` is a segment of the string that starts at the
start or right after a separator and ends at the end or with a separator. -/
theorem genSplitLoop_after_mem (sep : GoString) (n : Nat) :
    ∀ (s p : GoString), p ∈ genSplitLoop sep sep.length n s →
      ∃ a b, s = a ++ p ++ b ∧ (a = [] ∨ ∃ a', a = a' ++ sep) ∧
        (b = [] ∨ ∃ p', p = p' ++ sep) := by
  induction n with
  | zero =>
    intro s p hp
    simp only [genSplitLoop, List.mem_singleton] at hp
    subst hp
    exact ⟨[], [], by simp, Or.inl rfl, Or.inl rfl⟩
  | succ n ih =>
    intro s p hp
    unfold genSplitLoop at hp
    cases hI : Index s sep with
    | none =>
      simp only [hI, List.mem_singleton] at hp
      subst hp
      exact ⟨[], [], by simp, Or.inl rfl, Or.inl rfl⟩
    | some m =>
      simp only [hI, List.mem_cons] at hp
      obtain ⟨x, y, hxy, hx⟩ := Index_some sep s m hI
      have htake : s.take (m + sep.length) = x ++ sep := by
        rw [hxy, ← hx]
        exact List.take_left' (by simp)
      have hdrop : s.drop (m + sep.length) = y := by
        rw [hxy, ← hx]
        exact List.drop_left' (by simp)
      rw [htake, hdrop] at hp
      rcases hp with hp | hp
      · subst hp
        exact ⟨[], y, by simp [hxy], Or.inl rfl, Or.inr ⟨x, rfl⟩⟩
      · obtain ⟨a, b, hab, ha, hb⟩ := ih y p hp
        refine ⟨x ++ sep ++ a, b, by simp [hxy, hab], Or.inr ?_, hb⟩
        rcases ha with ha | ⟨a', ha'⟩
        · exact ⟨x, by simp [ha]⟩
        · exact ⟨x ++ sep ++ a', by simp [ha']⟩

/-- A segment that starts at the start or right after the separator byte and
runs up to the next separator byte, or to the end, is a piece of `SplitAfter`. -/
theorem genSplitLoop_char_mem (c : Char) (n : Nat) :
    ∀ (s a q b : GoString), s.length ≤ n → s = a ++ q ++ b →
      (a = [] ∨ ∃ a', a = a' ++ [c]) →
      ((∃ q', q = q' ++ [c] ∧ c ∉ q') ∨ (c ∉ q ∧ b = [])) →
      q ∈ genSplitLoop [c] 1 n s := by
  induction n with
  | zero =>
    intro s a q b hn hs ha hq
    have hnil : s = [] := List.length_eq_zero.mp (by omega)
    rw [hnil] at hs
    have hq0 : q = [] := by
      have := congrArg List.length hs
      simp at this
      exact List.length_eq_zero.mp (by omega)
    simp [genSplitLoop, hnil, hq0]
  | succ n ih =>
    intro s a q b hn hs ha hq
    unfold genSplitLoop
    rcases ha with ha | ⟨a', ha'⟩
    · subst ha
      rcases hq with ⟨q', hq', hc⟩ | ⟨hc, hb⟩
      · have hs' : s = q' ++ c :: b := by simp [hs, hq']
        have hI := Index_char_first c q' b hc
        rw [← hs'] at hI
        simp only [hI]
        have htake : s.take (q'.length + 1) = q := by
          rw [hs', hq']
          have : q' ++ c :: b = (q' ++ [c]) ++ b := by simp
          rw [this]
          exact List.take_left' (by simp)
        rw [htake]
        exact List.mem_cons_self _ _
      · have hs' : s = q := by simp [hs, hb]
        have hI := Index_char_none c q hc
        rw [hs']
        simp only [hI]
        exact List.mem_singleton_self _
    · have hmem : c ∈ a := by simp [ha']
      obtain ⟨x, a2, hxa, hcx⟩ := List.eq_append_cons_of_mem hmem
      have hs' : s = x ++ c :: (a2 ++ q ++ b) := by simp [hs, hxa]
      have hI := Index_char_first c x (a2 ++ q ++ b) hcx
      rw [← hs'] at hI
      simp only [hI]
      have hdrop : s.drop (x.length + [c].length) = a2 ++ q ++ b := by
        rw [hs']
        have : x ++ c :: (a2 ++ q ++ b) = (x ++ [c]) ++ (a2 ++ q ++ b) := by simp
        rw [this]
        exact List.drop_left' (by simp)
      rw [hdrop]
      apply List.mem_cons_of_mem
      apply ih (a2 ++ q ++ b) a2 q b _ rfl _ hq
      · have := congrArg List.length hs'
        simp at this
        simp
        omega
      · rcases List.eq_nil_or_concat a2 with h | ⟨d, e, h⟩
        · exact Or.inl h
        · right
          rw [List.concat_eq_append] at h
          refine ⟨d, ?_⟩
          have h2 : a' ++ [c] = (x ++ c :: d) ++ [e] := by
            rw [← ha', hxa, h]; simp
          have := List.append_inj_right' h2 rfl
          simp only [List.cons.injEq, and_true] at this
          rw [h, this]

/-- A segment without the separator byte that starts at the start or right
after a separator byte and ends at the end or right before one is a piece of
`Split`. -/
theorem genSplitLoop_char_mem_split (c : Char) (n : Nat) :
    ∀ (s a q b : GoString), s.length ≤ n → s = a ++ q ++ b →
      (a = [] ∨ ∃ a', a = a' ++ [c]) → c ∉ q → (b = [] ∨ ∃ b', b = c :: b') →
      q ∈ genSplitLoop [c] 0 n s := by
  induction n with
  | zero =>
    intro s a q b hn hs ha hq hb
    have hnil : s = [] := List.length_eq_zero.mp (by omega)
    rw [hnil] at hs
    have hq0 : q = [] := by
      have := congrArg List.length hs
      simp at this
      exact List.length_eq_zero.mp (by omega)
    simp [genSplitLoop, hnil, hq0]
  | succ n ih =>
    intro s a q b hn hs ha hq hb
    unfold genSplitLoop
    rcases ha with ha | ⟨a', ha'⟩
    · subst ha
      rcases hb with hb | ⟨b', hb'⟩
      · have hs' : s = q := by simp [hs, hb]
        have hI := Index_char_none c q hq
        rw [hs']
        simp only [hI]
        exact List.mem_singleton_self _
      · have hs' : s = q ++ c :: b' := by simp [hs, hb']
        have hI := Index_char_first c q b' hq
        rw [← hs'] at hI
        simp only [hI]
        have htake : s.take (q.length + 0) = q := by
          rw [hs']
          exact List.take_left' (by simp)
        rw [htake]
        exact List.mem_cons_self _ _
    · have hmem : c ∈ a := by simp [ha']
      obtain ⟨x, a2, hxa, hcx⟩ := List.eq_append_cons_of_mem hmem
      have hs' : s = x ++ c :: (a2 ++ q ++ b) := by simp [hs, hxa]
      have hI := Index_char_first c x (a2 ++ q ++ b) hcx
      rw [← hs'] at hI
      simp only [hI]
      have hdrop : s.drop (x.length + [c].length) = a2 ++ q ++ b := by
        rw [hs']
        have : x ++ c :: (a2 ++ q ++ b) = (x ++ [c]) ++ (a2 ++ q ++ b) := by simp
        rw [this]
        exact List.drop_left' (by simp)
      rw [hdrop]
      apply List.mem_cons_of_mem
      apply ih (a2 ++ q ++ b) a2 q b _ rfl _ hq hb
      · have := congrArg List.length hs'
        simp at this
        simp
        omega
      · rcases List.eq_nil_or_concat a2 with h | ⟨d, e, h⟩
        · exact Or.inl h
        · right
          rw [List.concat_eq_append] at h
          refine ⟨d, ?_⟩
          have h2 : a' ++ [c] = (x ++ c :: d) ++ [e] := by
            rw [← ha', hxa, h]; simp
          have := List.append_inj_right' h2 rfl
          simp only [List.cons.injEq, and_true] at this
          rw [h, this]

/-- The first piece of a split on one byte, when the byte occurs. -/
theorem genSplitLoop_char_cons0 (c : Char) (n : Nat) (x y : GoString) (hx : c ∉ x) :
    genSplitLoop [c] 0 (n + 1) (x ++ c :: y) = x :: genSplitLoop [c] 0 n y := by
  have hI := Index_char_first c x y hx
  rw [genSplitLoop]
  simp only [hI]
  have h1 : (x ++ c :: y).take (x.length + 0) = x := List.take_left' rfl
  have h2 : (x ++ c :: y).drop (x.length + [c].length) = y := by
    have : x ++ c :: y = (x ++ [c]) ++ y := by simp
    rw [this]
    exact List.drop_left' (by simp)
  rw [h1, h2]

theorem genSplitLoop_char_cons1 (c : Char) (n : Nat) (x y : GoString) (hx : c ∉ x) :
    genSplitLoop [c] 1 (n + 1) (x ++ c :: y) = (x ++ [c]) :: genSplitLoop [c] 1 n y := by
  have hI := Index_char_first c x y hx
  rw [genSplitLoop]
  simp only [hI]
  have h1 : (x ++ c :: y).take (x.length + 1) = x ++ [c] := by
    have : x ++ c :: y = (x ++ [c]) ++ y := by simp
    rw [this]
    exact List.take_left' (by simp)
  have h2 : (x ++ c :: y).drop (x.length + [c].length) = y := by
    have : x ++ c :: y = (x ++ [c]) ++ y := by simp
    rw [this]
    exact List.drop_left' (by simp)
  rw [h1, h2]

/-- A split on one byte of a text without that byte is the text alone. -/
theorem genSplitLoop_char_last (c : Char) (k n : Nat) (s : GoString) (hs : c ∉ s) :
    genSplitLoop [c] k n s = [s] := by
  cases n with
  | zero => rfl
  | succ n =>
    rw [genSplitLoop]
    simp only [Index_char_none c s hs]

theorem char_first_occurrence (c : Char) (s : GoString) :
    c ∉ s ∨ ∃ x y, s = x ++ c :: y ∧ c ∉ x := by
  by_cases h : c ∈ s
  · exact Or.inr (List.eq_append_cons_of_mem h)
  · exact Or.inl h

/-- The number of pieces of a split on one byte. -/
theorem genSplitLoop_char_length (c : Char) (n : Nat) :
    ∀ s : GoString, s.length ≤ n → (genSplitLoop [c] 0 n s).length = s.count c + 1 := by
  induction n with
  | zero =>
    intro s hs
    have hnil : s = [] := List.length_eq_zero.mp (by omega)
    subst hnil
    rfl
  | succ n ih =>
    intro s hs
    rcases char_first_occurrence c s with h | ⟨x, y, hxy, hx⟩
    · rw [genSplitLoop_char_last c 0 _ s h, List.count_eq_zero.mpr h]
      rfl
    · subst hxy
      rw [genSplitLoop_char_cons0 c n x y hx]
      have hy : y.length ≤ n := by
        simp at hs
        omega
      simp [ih y hy, List.count_eq_zero.mpr hx]

/-- Three pieces of a split on one byte, joined by that byte, give the text. -/
theorem genSplitLoop_char_three (c : Char) (s m p v : GoString)
    (h : Split s [c] = [m, p, v]) : s = m ++ c :: (p ++ c :: v) := by
  unfold Split genSplit at h
  rcases char_first_occurrence c s with h1 | ⟨x, y, hxy, hx⟩
  · rw [genSplitLoop_char_last c 0 _ s h1] at h
    simp at h
  · subst hxy
    have hlen : (x ++ c :: y).length = y.length + x.length + 1 := by simp; omega
    rw [hlen, genSplitLoop_char_cons0 c _ x y hx] at h
    simp only [List.cons.injEq] at h
    obtain ⟨hm, hrest⟩ := h
    subst hm
    rcases char_first_occurrence c y with h2 | ⟨x2, y2, hxy2, hx2⟩
    · rw [genSplitLoop_char_last c 0 _ y h2] at hrest
      simp at hrest
    · subst hxy2
      have hlen2 : (x2 ++ c :: y2).length + x.length = (y2.length + x2.length + x.length) + 1 := by
        simp; omega
      rw [hlen2, genSplitLoop_char_cons0 c _ x2 y2 hx2] at hrest
      simp only [List.cons.injEq] at hrest
      obtain ⟨hp, hrest2⟩ := hrest
      subst hp
      rcases char_first_occurrence c y2 with h3 | ⟨x3, y3, hxy3, hx3⟩
      · rw [genSplitLoop_char_last c 0 _ y2 h3] at hrest2
        simp only [List.cons.injEq, and_true] at hrest2
        rw [hrest2]
      · subst hxy3
        have hlen3 : (x3 ++ c :: y3).length + x2.length + x.length =
            (y3.length + x3.length + x2.length + x.length) + 1 := by
          simp; omega
        rw [hlen3, genSplitLoop_char_cons0 c _ x3 y3 hx3] at hrest2
        have := congrArg List.length hrest2
        have hne := genSplitLoop_ne_nil [c] 0 (y3.length + x3.length + x2.length + x.length) y3
        cases hg : genSplitLoop [c] 0 (y3.length + x3.length + x2.length + x.length) y3 with
        | nil => exact absurd hg hne
        | cons a t =>
          rw [hg] at this
          simp at this

/-- `Index` finds an occurrence at or before any given one. -/
theorem Index_le_of_occurrence (sep : GoString) :
    ∀ (s a b : GoString), s = a ++ sep ++ b → ∃ m, Index s sep = some m ∧ m ≤ a.length := by
  intro s
  induction s with
  | nil =>
    intro a b h
    have h1 : a = [] ∧ sep = [] := by
      have := congrArg List.length h
      simp at this
      exact ⟨List.length_eq_zero.mp (by omega), List.length_eq_zero.mp (by omega)⟩
    exact ⟨0, by simp [Index, h1.2], Nat.zero_le _⟩
  | cons c t ih =>
    intro a b h
    by_cases hp : sep.isPrefixOf (c :: t) = true
    · exact ⟨0, by simp [Index, hp], Nat.zero_le _⟩
    · cases a with
      | nil =>
        exfalso
        apply hp
        rw [List.isPrefixOf_iff_prefix]
        exact ⟨b, by simpa using h.symm⟩
      | cons c' a' =>
        have h2 : c = c' ∧ t = a' ++ sep ++ b := by simpa using h
        obtain ⟨m', hm', hle⟩ := ih a' b h2.2
        refine ⟨m' + 1, ?_, by simp; omega⟩
        simp [Index, hp, hm']

/-- A text that contains the two-byte separator twice in a row has an empty
piece that is not its last piece. -/
theorem genSplitLoop_double_sep (r n : Char) (hrn : r ≠ n) (fuel : Nat) :
    ∀ (s a b : GoString), s.length ≤ fuel → s = a ++ [r, n] ++ [r, n] ++ b →
      ∃ e, e + 1 < (genSplitLoop [r, n] 0 fuel s).length ∧
        (genSplitLoop [r, n] 0 fuel s)[e]? = some [] := by
  induction fuel with
  | zero =>
    intro s a b hs h
    have := congrArg List.length h
    simp at this
    omega
  | succ fuel ih =>
    intro s a b hs h
    obtain ⟨m, hm, hle⟩ := Index_le_of_occurrence [r, n] s a ([r, n] ++ b) (by simp [h])
    obtain ⟨x, y, hxy, hx⟩ := Index_some [r, n] s m hm
    have htake : s.take (m + 0) = x := by
      rw [hxy, List.append_assoc]
      exact List.take_left' (by simp [hx])
    have hdrop : s.drop (m + [r, n].length) = y := by
      rw [hxy, ← hx]
      exact List.drop_left' (by simp)
    have hylen : y.length ≤ fuel := by
      have := congrArg List.length hxy
      simp at this
      omega
    rw [genSplitLoop]
    simp only [hm, htake, hdrop]
    -- the part of `a` after the first occurrence
    have hax : a = x ++ a.drop m := by
      have h1 : x = a.take m := by
        rw [← htake, h, List.append_assoc, List.append_assoc, Nat.add_zero,
          List.take_append_of_le_length hle]
      rw [h1, List.take_append_drop]
    have hrest : [r, n] ++ y = a.drop m ++ [r, n] ++ [r, n] ++ b := by
      have h2 : x ++ ([r, n] ++ y) = x ++ (a.drop m ++ [r, n] ++ [r, n] ++ b) := by
        have : s = x ++ (a.drop m ++ [r, n] ++ [r, n] ++ b) := by
          rw [h]
          conv_lhs => rw [hax]
          simp
        rw [← this, hxy]
        simp
      exact List.append_cancel_left h2
    match ha1 : a.drop m, hrest with
    | [], hrest =>
      have hy : y = [r, n] ++ b := by
        have : [r, n] ++ y = [r, n] ++ ([r, n] ++ b) := by simpa using hrest
        exact List.append_cancel_left this
      obtain ⟨f, hf⟩ : ∃ f, fuel = f + 1 := by
        have := congrArg List.length hy
        simp at this
        exact ⟨fuel - 1, by omega⟩
      have hI0 : Index y [r, n] = some 0 := by
        rw [hy]
        simp [Index, List.isPrefixOf]
      refine ⟨1, ?_, ?_⟩
      · rw [hf, genSplitLoop]
        simp only [hI0]
        have hne := genSplitLoop_ne_nil [r, n] 0 f (List.drop (0 + [r, n].length) y)
        cases hg : genSplitLoop [r, n] 0 f (List.drop (0 + [r, n].length) y) with
        | nil => exact absurd hg hne
        | cons u v => simp
      · rw [hf, genSplitLoop]
        simp only [hI0]
        simp
    | [c], hrest =>
      exfalso
      have : r = c ∧ n = r := by
        have h3 : r :: n :: y = c :: r :: n :: ([r, n] ++ b) := by simpa using hrest
        simp only [List.cons.injEq] at h3
        exact ⟨h3.1, h3.2.1⟩
      exact hrn this.2.symm
    | c1 :: c2 :: a', hrest =>
      have hy : y = a' ++ [r, n] ++ [r, n] ++ b := by
        have h3 : r :: n :: y = c1 :: c2 :: (a' ++ [r, n] ++ [r, n] ++ b) := by
          simpa using hrest
        simp only [List.cons.injEq] at h3
        exact h3.2.2
      obtain ⟨e, he1, he2⟩ := ih y a' b hylen hy
      exact ⟨e + 1, by simpa using he1, by simpa using he2⟩

/-! ## Lemmas on `findHandler` -/

theorem findHandlerSegs_range (bro : Route) (m : HttpVerb) (els : List GoString) :
    ∀ (k i : Nat), i + (k + 1) = els.length →
      (findHandlerSegs bro m els (List.range' i (k + 1)) = true ↔
        bro.method = m ∧ ∀ j, i ≤ j → j < els.length →
          (bro.slugs.getD j default).doesMatch (els.getD j []) = true) := by
  intro k
  induction k with
  | zero =>
    intro i hi
    have hlast : i = els.length - 1 := by omega
    simp only [List.range'_succ, List.range'_zero, findHandlerSegs]
    by_cases hm : bro.method = m
    · by_cases hd : (bro.slugs.getD i default).doesMatch (els.getD i []) = true
      · simp only [hm, hd, ne_eq, not_true_eq_false, if_false, Bool.not_true,
          Bool.false_eq_true, true_and]
        rw [if_pos hlast]
        simp only [true_iff]
        intro j h1 h2
        have : j = i := by omega
        subst this
        exact hd
      · have hd2 : (bro.slugs.getD i default).doesMatch (els.getD i []) = false := by
          simpa using hd
        simp only [hm, hd2, ne_eq, not_true_eq_false, if_false, Bool.not_false, if_true,
          Bool.false_eq_true, true_and, false_iff]
        intro h
        have := h i (le_refl _) (by omega)
        rw [hd2] at this
        exact Bool.false_ne_true this
    · simp [hm]
  | succ k ih =>
    intro i hi
    have hne : i ≠ els.length - 1 := by omega
    rw [List.range'_succ]
    unfold findHandlerSegs
    by_cases hm : bro.method = m
    · by_cases hd : (bro.slugs.getD i default).doesMatch (els.getD i []) = true
      · simp only [hm, hd, hne, ne_eq, not_true_eq_false, if_false, Bool.not_true,
          Bool.false_eq_true, true_and]
        have hrec := ih (i + 1) (by omega)
        simp only [hm, true_and] at hrec
        rw [hrec]
        constructor
        · intro h j h1 h2
          by_cases hji : j = i
          · subst hji; exact hd
          · exact h j (by omega) h2
        · intro h j h1 h2
          exact h j (by omega) h2
      · have hd2 : (bro.slugs.getD i default).doesMatch (els.getD i []) = false := by
          simpa using hd
        simp only [hm, hd2, ne_eq, not_true_eq_false, if_false, Bool.not_false, if_true,
          Bool.false_eq_true, true_and, false_iff]
        intro h
        have := h i (le_refl _) (by omega)
        rw [hd2] at this
        exact Bool.false_ne_true this
    · simp [hm]

theorem matches_iff_index (bro : Route) (m : HttpVerb) (els : List GoString) :
    bro.Matches m els ↔
      bro.method = m ∧ bro.slugs.length = els.length ∧
        ∀ j, j < els.length →
          (bro.slugs.getD j default).doesMatch (els.getD j []) = true := by
  unfold Route.Matches
  rw [List.forall₂_iff_get]
  constructor
  · rintro ⟨hm, hl, h⟩
    refine ⟨hm, hl, ?_⟩
    intro j hj
    have hj1 : j < bro.slugs.length := by omega
    rw [List.getD_eq_getElem _ _ hj1, List.getD_eq_getElem _ _ hj]
    exact h j hj1 hj
  · rintro ⟨hm, hl, h⟩
    refine ⟨hm, hl, ?_⟩
    intro j hj1 hj
    have := h j hj
    rw [List.getD_eq_getElem _ _ hj1, List.getD_eq_getElem _ _ hj] at this
    exact this

/-- The test made on one candidate of the bucket is exactly `Matches`. -/
theorem candidate_iff_matches (bro : Route) (m : HttpVerb) (els : List GoString)
    (hne : els ≠ []) :
    (bro.slugs.length = els.length ∧
        findHandlerSegs bro m els (List.range els.length) = true) ↔ bro.Matches m els := by
  rw [matches_iff_index]
  obtain ⟨k, hk⟩ : ∃ k, els.length = k + 1 := by
    cases els with
    | nil => exact absurd rfl hne
    | cons a t => exact ⟨t.length, rfl⟩
  have hr : List.range els.length = List.range' 0 (k + 1) := by
    rw [List.range_eq_range', hk]
  have h := findHandlerSegs_range bro m els k 0 (by omega)
  rw [hr, h]
  constructor
  · rintro ⟨hl, hm, hall⟩
    exact ⟨hm, hl, fun j hj => hall j (Nat.zero_le _) hj⟩
  · rintro ⟨hm, hl, hall⟩
    exact ⟨hl, hm, fun j _ hj => hall j hj⟩

theorem findHandlerBros_cons (m : HttpVerb) (els : List GoString) (hne : els ≠ [])
    (bro : Route) (rest : List Route) [Decidable (bro.Matches m els)] :
    findHandlerBros m els (bro :: rest) =
      if bro.Matches m els then some bro else findHandlerBros m els rest := by
  have hc := candidate_iff_matches bro m els hne
  by_cases hl : bro.slugs.length = els.length
  · by_cases hs : findHandlerSegs bro m els (List.range els.length) = true
    · have : bro.Matches m els := hc.mp ⟨hl, hs⟩
      simp [findHandlerBros, hl, hs, this]
    · have : ¬ bro.Matches m els := fun h => hs (hc.mpr h).2
      simp [findHandlerBros, hl, hs, this]
  · have : ¬ bro.Matches m els := fun h => hl (hc.mpr h).1
    simp [findHandlerBros, hl, this]

theorem findHandlerBros_some (m : HttpVerb) (els : List GoString) (hne : els ≠ [])
    (bros : List Route) (route : Route) :
    findHandlerBros m els bros = some route ↔
      ∃ pre post, bros = pre ++ route :: post ∧ route.Matches m els ∧
        ∀ b ∈ pre, ¬ b.Matches m els := by
  classical
  induction bros with
  | nil => simp [findHandlerBros]
  | cons bro rest ih =>
    rw [findHandlerBros_cons m els hne]
    by_cases hb : bro.Matches m els
    · simp only [hb, if_true, Option.some.injEq]
      constructor
      · intro h
        subst h
        exact ⟨[], rest, rfl, hb, by simp⟩
      · rintro ⟨pre, post, heq, _, hpre⟩
        cases pre with
        | nil =>
          simp only [List.nil_append, List.cons.injEq] at heq
          exact heq.1
        | cons a pre =>
          simp only [List.cons_append, List.cons.injEq] at heq
          exact absurd (heq.1 ▸ hb) (hpre a (List.mem_cons_self _ _))
    · simp only [hb, if_false]
      rw [ih]
      constructor
      · rintro ⟨pre, post, heq, hm, hpre⟩
        refine ⟨bro :: pre, post, by simp [heq], hm, ?_⟩
        intro b hbm
        rcases List.mem_cons.mp hbm with h | h
        · subst h; exact hb
        · exact hpre b h
      · rintro ⟨pre, post, heq, hm, hpre⟩
        cases pre with
        | nil =>
          simp only [List.nil_append, List.cons.injEq] at heq
          exact absurd (heq.1 ▸ hm) hb
        | cons a pre =>
          simp only [List.cons_append, List.cons.injEq] at heq
          exact ⟨pre, post, heq.2, hm, fun b hbm => hpre b (List.mem_cons_of_mem _ hbm)⟩

theorem findHandlerBros_none (m : HttpVerb) (els : List GoString) (hne : els ≠ [])
    (bros : List Route) :
    findHandlerBros m els bros = none ↔ ∀ b ∈ bros, ¬ b.Matches m els := by
  classical
  induction bros with
  | nil => simp [findHandlerBros]
  | cons bro rest ih =>
    rw [findHandlerBros_cons m els hne]
    by_cases hb : bro.Matches m els
    · simp [hb]
    · simp [hb, ih]

theorem doesMatch_iff (s : Slug) (str : GoString) :
    s.doesMatch str = true ↔
      (s.sType = SlugType.WILDCART ∨ (s.sType = SlugType.LITERAL ∧ s.value = str)) := by
  unfold Slug.doesMatch
  cases h : s.sType <;> simp

/-! ## Lemmas on `newRoute` and `Suscribe` -/

theorem getSlugType_wildcart_length (s : GoString)
    (h : getSlugType s = SlugType.WILDCART) : 2 ≤ s.length := by
  unfold getSlugType at h
  match s, h with
  | [], h => simp at h
  | [a], h =>
    by_cases ha : a = '['
    · subst ha; simp at h
    · simp [ha] at h
  | _ :: _ :: _, _ => simp

theorem getSlugName_isSome (s : GoString) : ∃ n, getSlugName s (getSlugType s) = some n := by
  cases h : getSlugType s with
  | LITERAL => exact ⟨s, rfl⟩
  | WILDCART =>
    have := getSlugType_wildcart_length s h
    exact ⟨(s.take (s.length - 1)).drop 1, by simp [getSlugName, this]⟩

theorem newRouteSlugs_isSome (els : List GoString) :
    ∃ slgs, newRouteSlugs els = some slgs ∧ slgs.length = els.length := by
  induction els with
  | nil => exact ⟨[], rfl, rfl⟩
  | cons a t ih =>
    obtain ⟨slgs, h1, h2⟩ := ih
    obtain ⟨n, hn⟩ := getSlugName_isSome a
    exact ⟨{ sType := getSlugType a, value := a, name := n } :: slgs,
      by simp [newRouteSlugs, hn, h1], by simp [h2]⟩

theorem newRoute_isSome (p : GoString) (m : HttpVerb) (els : List GoString)
    (f : routeHandler) :
    ∃ route, newRoute p m els f = some route ∧ route.path = p ∧ route.method = m ∧
      route.handler = f ∧ route.slugs.length = els.length ∧
      newRouteSlugs els = some route.slugs := by
  obtain ⟨slgs, h1, h2⟩ := newRouteSlugs_isSome els
  exact ⟨{ path := p, method := m, slugs := slgs, handler := f },
    by simp [newRoute, h1], rfl, rfl, rfl, h2, h1⟩

theorem Suscribe_eq (r : Router) (m : HttpVerb) (p : GoString) (f : routeHandler) :
    ∃ route, newRoute p m (Split p ['/']) f = some route ∧ route.path = p ∧
      route.method = m ∧ route.handler = f ∧
      route.slugs.length = (Split p ['/']).length ∧
      newRouteSlugs (Split p ['/']) = some route.slugs ∧
      r.Suscribe m p f =
        if "[]".toList ∈ Split p ['/'] then
          (some (p ++ " is not a valid path. Dont use empty slugs".toList), r)
        else if alreadySuscribed m p (r.paths (toUint16 (Split p ['/']).length)) then
          (some (p ++ " is already suscribed".toList), r)
        else (none, { r with paths := pathsAfter r p route }) := by
  obtain ⟨route, h1, h2, h3, h4, h5, h6⟩ := newRoute_isSome p m (Split p ['/']) f
  refine ⟨route, h1, h2, h3, h4, h5, h6, ?_⟩
  unfold Router.Suscribe
  simp only [h1]
  rfl

theorem Suscribe_ok (r r' : Router) (m : HttpVerb) (p : GoString) (f : routeHandler)
    (h : r.Suscribe m p f = (none, r')) :
    ∃ route, newRoute p m (Split p ['/']) f = some route ∧ route.path = p ∧
      route.method = m ∧ route.handler = f ∧
      route.slugs.length = (Split p ['/']).length ∧
      "[]".toList ∉ Split p ['/'] ∧
      alreadySuscribed m p (r.paths (toUint16 (Split p ['/']).length)) = false ∧
      r' = { r with paths := pathsAfter r p route } := by
  obtain ⟨route, h1, h2, h3, h4, h5, _, h7⟩ := Suscribe_eq r m p f
  refine ⟨route, h1, h2, h3, h4, h5, ?_⟩
  rw [h7] at h
  by_cases hb : "[]".toList ∈ Split p ['/']
  · rw [if_pos hb] at h
    simp at h
  · rw [if_neg hb] at h
    by_cases hd : alreadySuscribed m p (r.paths (toUint16 (Split p ['/']).length)) = true
    · rw [if_pos hd] at h
      simp at h
    · rw [if_neg hd] at h
      refine ⟨hb, by simpa using hd, ?_⟩
      exact (Prod.mk.inj h).2.symm

/-! ## Lemmas on maps and `parseSlugs` -/

theorem mapGet_mapSet_self {V : Type} (m : GoMap V) (k : GoString) (v : V) :
    mapGet (mapSet m k v) k = some v := by
  induction m with
  | nil => simp [mapSet, mapGet]
  | cons a t ih =>
    obtain ⟨k', v'⟩ := a
    by_cases h : k' = k
    · simp [mapSet, mapGet, h]
    · simp [mapSet, mapGet, h, ih]

theorem mapGet_mapSet_other {V : Type} (m : GoMap V) (k k2 : GoString) (v : V)
    (hne : k2 ≠ k) : mapGet (mapSet m k v) k2 = mapGet m k2 := by
  induction m with
  | nil => simp [mapSet, mapGet, Ne.symm hne]
  | cons a t ih =>
    obtain ⟨k', v'⟩ := a
    by_cases h : k' = k
    · subst h
      simp [mapSet, mapGet, Ne.symm hne]
    · by_cases h2 : k' = k2
      · subst h2
        simp [mapSet, mapGet, h]
      · simp [mapSet, mapGet, h, h2, ih]

theorem parseSlugsLoop_append (slugs : List Slug) (els : List GoString)
    (l1 l2 : List Nat) (m : GoMap GoString) :
    parseSlugsLoop slugs els (l1 ++ l2) m =
      parseSlugsLoop slugs els l2 (parseSlugsLoop slugs els l1 m) := by
  induction l1 generalizing m with
  | nil => rfl
  | cons i rest ih =>
    simp only [List.cons_append, parseSlugsLoop]
    split <;> exact ih _

/-- After the first `k` rounds every named wildcard not overwritten by a later
round below `k` is bound to its own segment. -/
theorem parseSlugsLoop_range (slugs : List Slug) (els : List GoString)
    (m : GoMap GoString) (k : Nat) :
    ∀ i, i < k → (slugs.getD i default).sType = SlugType.WILDCART →
      (slugs.getD i default).name ≠ [] →
      (∀ j, i < j → j < k → (slugs.getD j default).sType = SlugType.WILDCART →
        (slugs.getD j default).name ≠ (slugs.getD i default).name) →
      mapGet (parseSlugsLoop slugs els (List.range k) m) (slugs.getD i default).name
        = some (els.getD i []) := by
  induction k with
  | zero => intro i hi; omega
  | succ k ih =>
    intro i hi hw hn hlast
    rw [List.range_succ, parseSlugsLoop_append]
    simp only [parseSlugsLoop]
    by_cases hik : i = k
    · subst hik
      have hc : ¬ ((slugs.getD i default).sType = SlugType.LITERAL ∨
          (slugs.getD i default).name = []) := by
        rintro (h | h)
        · rw [hw] at h; exact SlugType.noConfusion h
        · exact hn h
      rw [if_neg hc]
      exact mapGet_mapSet_self _ _ _
    · have hik2 : i < k := by omega
      have hprev := ih i hik2 hw hn (fun j h1 h2 => hlast j h1 (by omega))
      by_cases hc : (slugs.getD k default).sType = SlugType.LITERAL ∨
          (slugs.getD k default).name = []
      · rw [if_pos hc]; exact hprev
      · rw [if_neg hc]
        have hkw : (slugs.getD k default).sType = SlugType.WILDCART := by
          cases h : (slugs.getD k default).sType with
          | LITERAL => exact absurd (Or.inl h) hc
          | WILDCART => rfl
        have hne := hlast k hik2 (by omega) hkw
        rw [mapGet_mapSet_other _ _ _ _ (Ne.symm hne)]
        exact hprev

/-! ## Lemmas on reachable routers -/

theorem alreadySuscribed_iff (m : HttpVerb) (p : GoString) (siblings : List Route) :
    alreadySuscribed m p siblings = true ↔
      ∃ route, route ∈ siblings ∧ route.method = m ∧ route.path = p := by
  unfold alreadySuscribed
  rw [List.any_eq_true]
  constructor
  · rintro ⟨x, hx, h⟩
    simp only [Bool.and_eq_true, decide_eq_true_eq] at h
    exact ⟨x, hx, h.2, h.1⟩
  · rintro ⟨x, hx, h1, h2⟩
    exact ⟨x, hx, by simp [h1, h2]⟩

/-- Every stored route lies in the bucket of its own segment count. -/
theorem Reachable.bucket_of_route {r : Router} (hr : Reachable r) :
    ∀ k route, route ∈ r.paths k → toUint16 (Split route.path ['/']).length = k := by
  induction hr with
  | new => intro k route h; simp [NewRouter] at h
  | suscribe r m p f _ ih =>
    obtain ⟨nr, _, hp, _, _, _, _, heq⟩ := Suscribe_eq r m p f
    rw [heq]
    intro k route h
    split at h
    · exact ih k route h
    · split at h
      · exact ih k route h
      · simp only [pathsAfter] at h
        by_cases hk : k = toUint16 (Split p ['/']).length
        · rw [if_pos hk] at h
          rcases List.mem_append.mp h with h | h
          · exact (ih _ route h).trans hk.symm
          · have : route = nr := by simpa using h
            rw [this, hp, hk]
        · rw [if_neg hk] at h
          exact ih k route h

theorem Suscribe_rejected_iff {r : Router} (hr : Reachable r) (m : HttpVerb)
    (p : GoString) (f : routeHandler) :
    (r.Suscribe m p f).1 ≠ none ↔ ("[]".toList ∈ Split p ['/'] ∨ Registered r m p) := by
  obtain ⟨nr, _, _, _, _, _, _, heq⟩ := Suscribe_eq r m p f
  rw [heq]
  by_cases hb : "[]".toList ∈ Split p ['/']
  · rw [if_pos hb]
    exact ⟨fun _ => Or.inl hb, fun _ => by simp⟩
  · rw [if_neg hb]
    by_cases hd : alreadySuscribed m p (r.paths (toUint16 (Split p ['/']).length)) = true
    · rw [if_pos hd]
      obtain ⟨route, h1, h2, h3⟩ := (alreadySuscribed_iff _ _ _).mp hd
      have : Registered r m p := ⟨_, route, h1, h2, h3⟩
      exact ⟨fun _ => Or.inr this, fun _ => by simp⟩
    · rw [if_neg hd]
      have : ¬ Registered r m p := by
        rintro ⟨k, route, h1, h2, h3⟩
        have hk := hr.bucket_of_route k route h1
        rw [h3] at hk
        rw [← hk] at h1
        exact hd ((alreadySuscribed_iff _ _ _).mpr ⟨route, h1, h2, h3⟩)
      constructor
      · intro h
        exact absurd rfl h
      · rintro (h | h)
        · exact absurd h hb
        · exact absurd h this

theorem Suscribe_rejected_unchanged (r : Router) (m : HttpVerb) (p : GoString)
    (f : routeHandler) (h : (r.Suscribe m p f).1 ≠ none) : (r.Suscribe m p f).2 = r := by
  obtain ⟨nr, _, _, _, _, _, _, heq⟩ := Suscribe_eq r m p f
  rw [heq] at h ⊢
  split
  · rfl
  · split
    · rfl
    · rename_i h1 h2
      rw [if_neg h1, if_neg h2] at h
      exact absurd rfl h

theorem Registered_after (r r' : Router) (m : HttpVerb) (p : GoString) (f : routeHandler)
    (h : r.Suscribe m p f = (none, r')) (m2 : HttpVerb) (p2 : GoString) :
    Registered r' m2 p2 ↔ (Registered r m2 p2 ∨ (m2 = m ∧ p2 = p)) := by
  obtain ⟨nr, _, hp, hm, _, _, _, _, hr'⟩ := Suscribe_ok _ _ _ _ _ h
  subst hr'
  constructor
  · rintro ⟨k, route, h1, h2, h3⟩
    simp only [pathsAfter] at h1
    by_cases hk : k = toUint16 (Split p ['/']).length
    · rw [if_pos hk] at h1
      rcases List.mem_append.mp h1 with h1 | h1
      · exact Or.inl ⟨_, route, h1, h2, h3⟩
      · have : route = nr := by simpa using h1
        subst this
        exact Or.inr ⟨h2.symm.trans hm, h3.symm.trans hp⟩
    · rw [if_neg hk] at h1
      exact Or.inl ⟨k, route, h1, h2, h3⟩
  · rintro (⟨k, route, h1, h2, h3⟩ | ⟨h2, h3⟩)
    · refine ⟨k, route, ?_, h2, h3⟩
      simp only [pathsAfter]
      by_cases hk : k = toUint16 (Split p ['/']).length
      · rw [if_pos hk]
        exact List.mem_append_left _ (hk ▸ h1)
      · rw [if_neg hk]; exact h1
    · refine ⟨toUint16 (Split p ['/']).length, nr, ?_, hm.trans h2.symm, hp.trans h3.symm⟩
      simp [pathsAfter]

theorem newRouteSlugs_values (els : List GoString) (slgs : List Slug)
    (h : newRouteSlugs els = some slgs) :
    slgs.map Slug.value = els ∧ ∀ slg ∈ slgs, slg.sType = getSlugType slg.value := by
  induction els generalizing slgs with
  | nil =>
    simp only [newRouteSlugs, Option.some.injEq] at h
    subst h
    simp
  | cons a t ih =>
    obtain ⟨n, hn⟩ := getSlugName_isSome a
    obtain ⟨rest, hrest, _⟩ := newRouteSlugs_isSome t
    simp only [newRouteSlugs, hn, hrest, Option.some.injEq] at h
    subst h
    obtain ⟨h1, h2⟩ := ih rest hrest
    refine ⟨by simp [h1], ?_⟩
    intro slg hslg
    rcases List.mem_cons.mp hslg with h | h
    · subst h; rfl
    · exact h2 slg h

/-! ## Lemmas on `serialize` -/

theorem mapGet_of_mem_keys {V : Type} (m : GoMap V) (k : GoString) (h : k ∈ mapKeys m) :
    ∃ v, mapGet m k = some v := by
  induction m with
  | nil => simp [mapKeys] at h
  | cons a t ih =>
    obtain ⟨k', v'⟩ := a
    by_cases hk : k' = k
    · exact ⟨v', by simp [mapGet, hk]⟩
    · have : k ∈ mapKeys t := by
        simp only [mapKeys, List.map_cons, List.mem_cons] at h
        rcases h with h | h
        · exact absurd h.symm hk
        · exact h
      obtain ⟨v, hv⟩ := ih this
      exact ⟨v, by simp [mapGet, hk, hv]⟩

theorem keys_filterMap_mapGet {V : Type} (m : GoMap V) (hnd : (mapKeys m).Nodup) :
    (mapKeys m).filterMap (mapGet m) = m.map Prod.snd := by
  induction m with
  | nil => rfl
  | cons a t ih =>
    obtain ⟨k', v'⟩ := a
    have hnd2 : k' ∉ mapKeys t ∧ (mapKeys t).Nodup :=
      List.nodup_cons.mp hnd
    have hrest : (mapKeys t).filterMap (mapGet ((k', v') :: t)) =
        (mapKeys t).filterMap (mapGet t) := by
      apply List.filterMap_congr
      intro k hk
      have : k' ≠ k := fun h => hnd2.1 (h ▸ hk)
      simp [mapGet, this]
    have h1 : mapGet ((k', v') :: t) k' = some v' := by simp [mapGet]
    rw [show mapKeys ((k', v') :: t) = k' :: mapKeys t from rfl, List.filterMap_cons, h1,
      hrest, ih hnd2.2]
    rfl

theorem serializeHeaders_eq (m : GoMap Header) (iter : List GoString) (s : GoString)
    (h : ∀ k ∈ iter, ∃ v, mapGet m k = some v) :
    serializeHeaders m iter s =
      some (s ++ ((iter.filterMap (mapGet m)).map Header.toString).flatten) := by
  induction iter generalizing s with
  | nil => simp [serializeHeaders]
  | cons k rest ih =>
    obtain ⟨v, hv⟩ := h k (List.mem_cons_self _ _)
    have hrest := ih (s ++ v.toString) (fun k' hk' => h k' (List.mem_cons_of_mem _ hk'))
    simp [serializeHeaders, hv, hrest]

theorem serialize_of_status_none (res : Response) (iter : List GoString)
    (h : statusCodeToMsg res.Status = none) :
    res.serialize iter = Result.err "Not supported code".toList := by
  unfold Response.serialize
  simp only [h]

theorem serialize_ne_err (res : Response) (iter : List GoString) (reason : GoString)
    (h : statusCodeToMsg res.Status = some reason) (e : GoString) :
    res.serialize iter ≠ Result.err e := by
  unfold Response.serialize
  simp only [h]
  split <;> simp

/-! ## Lemmas on `TrimSpace` -/

theorem isSpace2_lead {a b : Char} (h : isSpace2 a b = true) :
    a.toNat = 0xC2 ∧ 0x80 ≤ b.toNat ∧ b.toNat < 0xC0 := by
  simp only [isSpace2, Bool.and_eq_true, Bool.or_eq_true, decide_eq_true_eq] at h
  omega

theorem isSpace3_lead {a b c : Char} (h : isSpace3 a b c = true) :
    (a.toNat = 0xE1 ∨ a.toNat = 0xE2 ∨ a.toNat = 0xE3) ∧ 0x80 ≤ b.toNat ∧ b.toNat < 0xC0 ∧
      0x80 ≤ c.toNat ∧ c.toNat < 0xC0 := by
  simp only [isSpace3, Bool.and_eq_true, Bool.or_eq_true, decide_eq_true_eq] at h
  omega

theorem asciiSpace_lt {a : Char} (h : asciiSpace a = true) : a.toNat < 0x80 := by
  simp only [asciiSpace, Bool.or_eq_true, decide_eq_true_eq] at h
  omega

theorem asciiSpace_false_of_ge {a : Char} (h : 0x80 ≤ a.toNat) : asciiSpace a = false := by
  cases hA : asciiSpace a with
  | false => rfl
  | true => have := asciiSpace_lt hA; omega

theorem isSpace2_false_of_lt {a : Char} (b : Char) (h : a.toNat < 0x80) :
    isSpace2 a b = false := by
  cases hA : isSpace2 a b with
  | false => rfl
  | true => have := isSpace2_lead hA; omega

theorem isSpace2_false_right {b : Char} (a : Char) (h : b.toNat < 0x80) :
    isSpace2 a b = false := by
  cases hA : isSpace2 a b with
  | false => rfl
  | true => have := isSpace2_lead hA; omega

theorem isSpace3_false_of_lt {a : Char} (b c : Char) (h : a.toNat < 0x80) :
    isSpace3 a b c = false := by
  cases hA : isSpace3 a b c with
  | false => rfl
  | true => have := isSpace3_lead hA; omega

theorem isSpace3_false_right {c : Char} (a b : Char) (h : c.toNat < 0x80) :
    isSpace3 a b c = false := by
  cases hA : isSpace3 a b c with
  | false => rfl
  | true => have := isSpace3_lead hA; omega

theorem isSpace2_false_of_three {a b c : Char} (d : Char) (h : isSpace3 a b c = true) :
    isSpace2 a d = false := by
  cases hA : isSpace2 a d with
  | false => rfl
  | true => have := isSpace2_lead hA; have := isSpace3_lead h; omega

theorem trimLeftSpace_one (a : Char) (s : GoString) (h : asciiSpace a = true) :
    trimLeftSpace (a :: s) = trimLeftSpace s := by
  match s with
  | [] => simp [trimLeftSpace, h]
  | [b] => simp [trimLeftSpace, h]
  | b :: c :: t => simp [trimLeftSpace, h]

theorem trimLeftSpace_two (a b : Char) (s : GoString) (h : isSpace2 a b = true) :
    trimLeftSpace (a :: b :: s) = trimLeftSpace s := by
  have ha : asciiSpace a = false := asciiSpace_false_of_ge (by have := isSpace2_lead h; omega)
  match s with
  | [] => simp [trimLeftSpace, h, ha]
  | c :: t => simp [trimLeftSpace, h, ha]

theorem trimLeftSpace_three (a b c : Char) (s : GoString) (h : isSpace3 a b c = true) :
    trimLeftSpace (a :: b :: c :: s) = trimLeftSpace s := by
  have ha : asciiSpace a = false := asciiSpace_false_of_ge (by have := isSpace3_lead h; omega)
  have h2 : isSpace2 a b = false := isSpace2_false_of_three b h
  simp [trimLeftSpace, h, ha, h2]

theorem trimLeftSpace_plain (g : Char) (s : GoString) (h : plainByte g) :
    trimLeftSpace (g :: s) = g :: s := by
  obtain ⟨h1, h2⟩ := h
  match s with
  | [] => simp [trimLeftSpace, h1]
  | [b] => simp [trimLeftSpace, h1, isSpace2_false_of_lt b h2]
  | b :: c :: t =>
    simp [trimLeftSpace, h1, isSpace2_false_of_lt b h2, isSpace3_false_of_lt b c h2]

theorem trimRightSpaceRev_one (a : Char) (s : GoString) (h : asciiSpace a = true) :
    trimRightSpaceRev (a :: s) = trimRightSpaceRev s := by
  match s with
  | [] => simp [trimRightSpaceRev, h]
  | [b] => simp [trimRightSpaceRev, h]
  | b :: c :: t => simp [trimRightSpaceRev, h]

theorem trimRightSpaceRev_two (a b : Char) (s : GoString) (h : isSpace2 b a = true) :
    trimRightSpaceRev (a :: b :: s) = trimRightSpaceRev s := by
  have ha : asciiSpace a = false := asciiSpace_false_of_ge (by have := isSpace2_lead h; omega)
  match s with
  | [] => simp [trimRightSpaceRev, h, ha]
  | c :: t => simp [trimRightSpaceRev, h, ha]

theorem trimRightSpaceRev_three (a b c : Char) (s : GoString) (h : isSpace3 c b a = true) :
    trimRightSpaceRev (a :: b :: c :: s) = trimRightSpaceRev s := by
  have ha : asciiSpace a = false := asciiSpace_false_of_ge (by have := isSpace3_lead h; omega)
  have h2 : isSpace2 b a = false := by
    cases hA : isSpace2 b a with
    | false => rfl
    | true => have := isSpace2_lead hA; have := isSpace3_lead h; omega
  simp [trimRightSpaceRev, h, ha, h2]

theorem trimRightSpaceRev_plain (g : Char) (s : GoString) (h : plainByte g) :
    trimRightSpaceRev (g :: s) = g :: s := by
  obtain ⟨h1, h2⟩ := h
  match s with
  | [] => simp [trimRightSpaceRev, h1]
  | [b] => simp [trimRightSpaceRev, h1, isSpace2_false_right b h2]
  | b :: c :: t =>
    simp [trimRightSpaceRev, h1, isSpace2_false_right b h2, isSpace3_false_right c b h2]

theorem trimLeftSpace_run (w : GoString) (hw : SpRun w) (g : Char) (x : GoString)
    (hg : plainByte g) : trimLeftSpace (w ++ g :: x) = g :: x := by
  induction hw with
  | nil => exact trimLeftSpace_plain g x hg
  | one a w ha _ ih => rw [List.cons_append, trimLeftSpace_one _ _ ha]; exact ih
  | two a b w hab _ ih =>
    rw [List.cons_append, List.cons_append, trimLeftSpace_two _ _ _ hab]; exact ih
  | three a b c w habc _ ih =>
    rw [List.cons_append, List.cons_append, List.cons_append,
      trimLeftSpace_three _ _ _ _ habc]
    exact ih

theorem trimRightSpaceRev_run (w : GoString) (hw : SpRunRev w) (g : Char) (x : GoString)
    (hg : plainByte g) : trimRightSpaceRev (w ++ g :: x) = g :: x := by
  induction hw with
  | nil => exact trimRightSpaceRev_plain g x hg
  | one a w ha _ ih => rw [List.cons_append, trimRightSpaceRev_one _ _ ha]; exact ih
  | two a b w hab _ ih =>
    rw [List.cons_append, List.cons_append, trimRightSpaceRev_two _ _ _ hab]; exact ih
  | three a b c w habc _ ih =>
    rw [List.cons_append, List.cons_append, List.cons_append,
      trimRightSpaceRev_three _ _ _ _ habc]
    exact ih

theorem trimLeftSpace_split_aux (n : Nat) :
    ∀ s : GoString, s.length ≤ n → ∃ w, SpRun w ∧ s = w ++ trimLeftSpace s := by
  induction n with
  | zero =>
    intro s hs
    have : s = [] := List.length_eq_zero.mp (by omega)
    subst this
    exact ⟨[], SpRun.nil, rfl⟩
  | succ n ih =>
    intro s hs
    match s, hs with
    | [], _ => exact ⟨[], SpRun.nil, rfl⟩
    | a :: t, hs =>
      have ht : t.length ≤ n := by simpa using hs
      by_cases ha : asciiSpace a = true
      · obtain ⟨w, hw, heq⟩ := ih t ht
        refine ⟨a :: w, SpRun.one a w ha hw, ?_⟩
        rw [trimLeftSpace_one a t ha, List.cons_append, ← heq]
      · have ha' : asciiSpace a = false := by simpa using ha
        match t, ht with
        | [], _ => exact ⟨[], SpRun.nil, by simp [trimLeftSpace, ha']⟩
        | b :: t2, ht =>
          by_cases hab : isSpace2 a b = true
          · obtain ⟨w, hw, heq⟩ := ih t2 (by simp at ht; omega)
            refine ⟨a :: b :: w, SpRun.two a b w hab hw, ?_⟩
            rw [trimLeftSpace_two a b t2 hab, List.cons_append, List.cons_append, ← heq]
          · have hab' : isSpace2 a b = false := by simpa using hab
            match t2, ht with
            | [], _ => exact ⟨[], SpRun.nil, by simp [trimLeftSpace, ha', hab']⟩
            | c :: t3, ht =>
              by_cases habc : isSpace3 a b c = true
              · obtain ⟨w, hw, heq⟩ := ih t3 (by simp at ht; omega)
                refine ⟨a :: b :: c :: w, SpRun.three a b c w habc hw, ?_⟩
                rw [trimLeftSpace_three a b c t3 habc, List.cons_append, List.cons_append,
                  List.cons_append, ← heq]
              · have habc' : isSpace3 a b c = false := by simpa using habc
                exact ⟨[], SpRun.nil, by simp [trimLeftSpace, ha', hab', habc']⟩

theorem trimLeftSpace_split (s : GoString) : ∃ w, SpRun w ∧ s = w ++ trimLeftSpace s :=
  trimLeftSpace_split_aux s.length s (le_refl _)

theorem trimRightSpaceRev_split_aux (n : Nat) :
    ∀ s : GoString, s.length ≤ n → ∃ w, SpRunRev w ∧ s = w ++ trimRightSpaceRev s := by
  induction n with
  | zero =>
    intro s hs
    have : s = [] := List.length_eq_zero.mp (by omega)
    subst this
    exact ⟨[], SpRunRev.nil, rfl⟩
  | succ n ih =>
    intro s hs
    match s, hs with
    | [], _ => exact ⟨[], SpRunRev.nil, rfl⟩
    | a :: t, hs =>
      have ht : t.length ≤ n := by simpa using hs
      by_cases ha : asciiSpace a = true
      · obtain ⟨w, hw, heq⟩ := ih t ht
        refine ⟨a :: w, SpRunRev.one a w ha hw, ?_⟩
        rw [trimRightSpaceRev_one a t ha, List.cons_append, ← heq]
      · have ha' : asciiSpace a = false := by simpa using ha
        match t, ht with
        | [], _ => exact ⟨[], SpRunRev.nil, by simp [trimRightSpaceRev, ha']⟩
        | b :: t2, ht =>
          by_cases hab : isSpace2 b a = true
          · obtain ⟨w, hw, heq⟩ := ih t2 (by simp at ht; omega)
            refine ⟨a :: b :: w, SpRunRev.two a b w hab hw, ?_⟩
            rw [trimRightSpaceRev_two a b t2 hab, List.cons_append, List.cons_append, ← heq]
          · have hab' : isSpace2 b a = false := by simpa using hab
            match t2, ht with
            | [], _ => exact ⟨[], SpRunRev.nil, by simp [trimRightSpaceRev, ha', hab']⟩
            | c :: t3, ht =>
              by_cases habc : isSpace3 c b a = true
              · obtain ⟨w, hw, heq⟩ := ih t3 (by simp at ht; omega)
                refine ⟨a :: b :: c :: w, SpRunRev.three a b c w habc hw, ?_⟩
                rw [trimRightSpaceRev_three a b c t3 habc, List.cons_append,
                  List.cons_append, List.cons_append, ← heq]
              · have habc' : isSpace3 c b a = false := by simpa using habc
                exact ⟨[], SpRunRev.nil, by simp [trimRightSpaceRev, ha', hab', habc']⟩

theorem trimRightSpaceRev_split (s : GoString) :
    ∃ w, SpRunRev w ∧ s = w ++ trimRightSpaceRev s :=
  trimRightSpaceRev_split_aux s.length s (le_refl _)

/-- No byte of a white space run is a plain byte such as the comma. -/
theorem SpRun.not_plain {w : GoString} (hw : SpRun w) :
    ∀ c ∈ w, asciiSpace c = true ∨ 0x80 ≤ c.toNat := by
  induction hw with
  | nil => intro c hc; simp at hc
  | one a w ha _ ih =>
    intro c hc
    rcases List.mem_cons.mp hc with h | h
    · subst h; exact Or.inl ha
    · exact ih c h
  | two a b w hab _ ih =>
    intro c hc
    have := isSpace2_lead hab
    simp only [List.mem_cons] at hc
    rcases hc with h | h | h
    · subst h; right; omega
    · subst h; right; omega
    · exact ih c h
  | three a b d w habc _ ih =>
    intro c hc
    have := isSpace3_lead habc
    simp only [List.mem_cons] at hc
    rcases hc with h | h | h | h
    · subst h; right; omega
    · subst h; right; omega
    · subst h; right; omega
    · exact ih c h

theorem SpRunRev.not_plain_rev {w : GoString} (hw : SpRunRev w) :
    ∀ c ∈ w, asciiSpace c = true ∨ 0x80 ≤ c.toNat := by
  induction hw with
  | nil => intro c hc; simp at hc
  | one a w ha _ ih =>
    intro c hc
    rcases List.mem_cons.mp hc with h | h
    · subst h; exact Or.inl ha
    · exact ih c h
  | two a b w hab _ ih =>
    intro c hc
    have := isSpace2_lead hab
    simp only [List.mem_cons] at hc
    rcases hc with h | h | h
    · subst h; right; omega
    · subst h; right; omega
    · exact ih c h
  | three a b d w habc _ ih =>
    intro c hc
    have := isSpace3_lead habc
    simp only [List.mem_cons] at hc
    rcases hc with h | h | h | h
    · subst h; right; omega
    · subst h; right; omega
    · subst h; right; omega
    · exact ih c h

theorem SpRun.append {w1 w2 : GoString} (h1 : SpRun w1) (h2 : SpRun w2) :
    SpRun (w1 ++ w2) := by
  induction h1 with
  | nil => exact h2
  | one a w ha _ ih => exact SpRun.one a _ ha ih
  | two a b w hab _ ih => exact SpRun.two a b _ hab ih
  | three a b c w habc _ ih => exact SpRun.three a b c _ habc ih

/-- What `TrimSpace` removes: a white space run on each side. -/
theorem TrimSpace_split (s : GoString) :
    ∃ w1 w2, SpRun w1 ∧ SpRunRev w2.reverse ∧ s = w1 ++ TrimSpace s ++ w2 := by
  obtain ⟨w1, hw1, h1⟩ := trimLeftSpace_split s
  obtain ⟨w2r, hw2, h2⟩ := trimRightSpaceRev_split (trimLeftSpace s).reverse
  refine ⟨w1, w2r.reverse, hw1, by simpa using hw2, ?_⟩
  have h3 : trimLeftSpace s = TrimSpace s ++ w2r.reverse := by
    have := congrArg List.reverse h2
    simpa [TrimSpace] using this
  rw [List.append_assoc, ← h3]
  exact h1

/-- `TrimSpace` gives back a text that starts and ends with a plain byte when
white space runs are put around it. -/
theorem TrimSpace_runs (w1 w2 : GoString) (hw1 : SpRun w1) (hw2 : SpRunRev w2.reverse)
    (g l : Char) (x y : GoString) (hg : plainByte g) (hl : plainByte l)
    (hxy : g :: x = y ++ [l]) : TrimSpace (w1 ++ (g :: x) ++ w2) = g :: x := by
  unfold TrimSpace
  rw [List.append_assoc, List.cons_append, trimLeftSpace_run w1 hw1 g _ hg]
  rw [← List.cons_append, hxy]
  have : (y ++ [l] ++ w2).reverse = w2.reverse ++ l :: y.reverse := by simp
  rw [this, trimRightSpaceRev_run _ hw2 l _ hl]
  simp

/-! ## Lemmas on the negotiation loops -/

theorem isEncodingSupportedLoop_iff (l : List GoString) :
    isEncodingSupportedLoop l = true ↔ ∃ p ∈ l, encodingToken p = "gzip".toList := by
  induction l with
  | nil => simp [isEncodingSupportedLoop]
  | cons a t ih =>
    unfold isEncodingSupportedLoop
    by_cases h : "gzip".toList = encodingToken a
    · rw [if_pos h]
      exact ⟨fun _ => ⟨a, List.mem_cons_self _ _, h.symm⟩, fun _ => rfl⟩
    · rw [if_neg h, ih]
      constructor
      · rintro ⟨p, hp, hpe⟩
        exact ⟨p, List.mem_cons_of_mem _ hp, hpe⟩
      · rintro ⟨p, hp, hpe⟩
        rcases List.mem_cons.mp hp with hpa | hpt
        · subst hpa; exact absurd hpe.symm h
        · exact ⟨p, hpt, hpe⟩

theorem selectUsedEncodingLoop_gzip (l : List GoString) :
    ∀ used : GoString, (∃ q ∈ l, encodingToken q = "gzip".toList) →
      selectUsedEncodingLoop l used = "gzip".toList := by
  induction l with
  | nil => intro used h; obtain ⟨q, hq, _⟩ := h; simp at hq
  | cons a t ih =>
    intro used h
    unfold selectUsedEncodingLoop
    by_cases ha : "gzip".toList = encodingToken a
    · simp only [ha.symm, if_true]
    · simp only [ha, if_false]
      apply ih
      obtain ⟨q, hq, hqe⟩ := h
      rcases List.mem_cons.mp hq with hqa | hqt
      · subst hqa; exact absurd hqe.symm ha
      · exact ⟨q, hqt, hqe⟩

theorem encodingToken_gzip (p : GoString) (h : encodingToken p = "gzip".toList) :
    TrimSpace p = "gzip".toList ∨ TrimSpace p = "gzip,".toList := by
  unfold encodingToken TrimSuffix at h
  by_cases hs : [','].isSuffixOf (TrimSpace p) = true
  · rw [if_pos hs] at h
    obtain ⟨t, ht⟩ := List.isSuffixOf_iff_suffix.mp hs
    right
    rw [← ht] at h ⊢
    have : (t ++ [',']).take ((t ++ [',']).length - [','].length) = t := by
      apply List.take_left'
      simp
    rw [this] at h
    rw [h]
    rfl
  · rw [if_neg hs] at h
    exact Or.inl h

theorem SpRun.no_comma {w : GoString} (hw : SpRun w) : ',' ∉ w := by
  intro h
  rcases hw.not_plain _ h with h1 | h1
  · exact absurd h1 (by decide)
  · exact absurd h1 (by decide)

theorem SpRunRev.no_comma_rev {w : GoString} (hw : SpRunRev w) : ',' ∉ w := by
  intro h
  rcases hw.not_plain_rev _ h with h1 | h1
  · exact absurd h1 (by decide)
  · exact absurd h1 (by decide)

/-- Where an accepted `gzip` stands in the header value: after the start or a
comma and a white space run, and before a white space run that ends the value
or before a comma. -/
theorem gzip_position (h p : GoString)
    (hp : p ∈ SplitAfter h ", ".toList) (htok : encodingToken p = "gzip".toList) :
    ∃ a0 w tail, h = a0 ++ (w ++ "gzip".toList) ++ tail ∧
      (a0 = [] ∨ ∃ a', a0 = a' ++ [',']) ∧ SpRun w ∧
      (SpRunRev tail.reverse ∨ ∃ rest, tail = ',' :: rest) := by
  obtain ⟨a, b, hab, ha, hb⟩ := genSplitLoop_after_mem ", ".toList h.length h p hp
  obtain ⟨w1, w2, hw1, hw2, hsplit⟩ := TrimSpace_split p
  have hc1 : ',' ∉ w1 := hw1.no_comma
  have hc2 : ',' ∉ w2 := fun hm => hw2.no_comma_rev (List.mem_reverse.mpr hm)
  have hpre : ∃ a0 pre, a = a0 ++ pre ∧ SpRun pre ∧
      (a0 = [] ∨ ∃ a', a0 = a' ++ [',']) := by
    rcases ha with ha | ⟨a', ha'⟩
    · exact ⟨[], [], by simp [ha], SpRun.nil, Or.inl rfl⟩
    · refine ⟨a' ++ [','], [' '], ?_, SpRun.one ' ' [] (by decide) SpRun.nil,
        Or.inr ⟨a', rfl⟩⟩
      rw [ha']
      simp
  obtain ⟨a0, pre, hapre, hpreS, ha0⟩ := hpre
  have hrun : SpRun (pre ++ w1) := hpreS.append hw1
  rcases encodingToken_gzip p htok with hT | hT
  · rw [hT] at hsplit
    have hpc : ',' ∉ p := by
      rw [hsplit]
      simp only [List.mem_append, not_or]
      exact ⟨⟨hc1, by decide⟩, hc2⟩
    have hb0 : b = [] := by
      rcases hb with hb | ⟨p', hp'⟩
      · exact hb
      · exact absurd (by rw [hp']; simp) hpc
    refine ⟨a0, pre ++ w1, w2, ?_, ha0, hrun, Or.inl hw2⟩
    rw [hab, hapre, hb0, hsplit]
    simp
  · rw [hT] at hsplit
    refine ⟨a0, pre ++ w1, ',' :: (w2 ++ b), ?_, ha0, hrun, Or.inr ⟨_, rfl⟩⟩
    rw [hab, hapre, hsplit]
    simp

/-- An accepted header value has a piece of the split on `","` whose token is
`gzip`. -/
theorem gzip_piece_transfer (h p : GoString)
    (hp : p ∈ SplitAfter h ", ".toList) (htok : encodingToken p = "gzip".toList) :
    ∃ q ∈ SplitAfter h [','], encodingToken q = "gzip".toList := by
  obtain ⟨a0, w, tail, hh, ha0, hw, htail⟩ := gzip_position h p hp htok
  have hg : plainByte 'g' := ⟨by decide, by decide⟩
  have hcw : ',' ∉ w := hw.no_comma
  rcases htail with ht | ⟨rest, hrest⟩
  · have hct : ',' ∉ tail := fun hm => ht.no_comma_rev (List.mem_reverse.mpr hm)
    refine ⟨w ++ "gzip".toList ++ tail, ?_, ?_⟩
    · apply genSplitLoop_char_mem ',' h.length h a0 _ [] (le_refl _)
      · rw [hh]; simp
      · exact ha0
      · right
        refine ⟨?_, rfl⟩
        simp only [List.mem_append, not_or]
        exact ⟨⟨hcw, by decide⟩, hct⟩
    · have hts : TrimSpace (w ++ "gzip".toList ++ tail) = "gzip".toList :=
        TrimSpace_runs w tail hw ht 'g' 'p' "zip".toList "gzi".toList
          hg ⟨by decide, by decide⟩ rfl
      unfold encodingToken
      rw [hts]
      decide
  · refine ⟨w ++ "gzip,".toList, ?_, ?_⟩
    · apply genSplitLoop_char_mem ',' h.length h a0 _ rest (le_refl _)
      · rw [hh, hrest]; simp
      · exact ha0
      · left
        refine ⟨w ++ "gzip".toList, by simp, ?_⟩
        simp only [List.mem_append, not_or]
        exact ⟨hcw, by decide⟩
    · have hts : TrimSpace (w ++ "gzip,".toList) = "gzip,".toList := by
        have := TrimSpace_runs w [] hw SpRunRev.nil 'g' ',' "zip,".toList
          "gzip".toList hg ⟨by decide, by decide⟩ rfl
        simpa using this
      unfold encodingToken
      rw [hts]
      decide

/-- An accepted header value has a comma-separated token that is `gzip` once the
white space around it is trimmed. -/
theorem gzip_token_of_supported (h : GoString) (hs : isEncodingSupported h = true) :
    ∃ t ∈ Split h [','], TrimSpace t = "gzip".toList := by
  obtain ⟨p, hp, htok⟩ := (isEncodingSupportedLoop_iff _).mp hs
  obtain ⟨a0, w, tail, hh, ha0, hw, htail⟩ := gzip_position h p hp htok
  have hg : plainByte 'g' := ⟨by decide, by decide⟩
  have hcw : ',' ∉ w := hw.no_comma
  rcases htail with ht | ⟨rest, hrest⟩
  · have hct : ',' ∉ tail := fun hm => ht.no_comma_rev (List.mem_reverse.mpr hm)
    refine ⟨w ++ "gzip".toList ++ tail, ?_, ?_⟩
    · apply genSplitLoop_char_mem_split ',' h.length h a0 _ [] (le_refl _)
      · rw [hh]; simp
      · exact ha0
      · simp only [List.mem_append, not_or]
        exact ⟨⟨hcw, by decide⟩, hct⟩
      · exact Or.inl rfl
    · exact TrimSpace_runs w tail hw ht 'g' 'p' "zip".toList "gzi".toList
        hg ⟨by decide, by decide⟩ rfl
  · refine ⟨w ++ "gzip".toList, ?_, ?_⟩
    · apply genSplitLoop_char_mem_split ',' h.length h a0 _ tail (le_refl _)
      · rw [hh]
      · exact ha0
      · simp only [List.mem_append, not_or]
        exact ⟨hcw, by decide⟩
      · exact Or.inr ⟨rest, hrest⟩
    · have := TrimSpace_runs w [] hw SpRunRev.nil 'g' 'p' "zip".toList
        "gzi".toList hg ⟨by decide, by decide⟩ rfl
      simpa using this

/-- An accepted header value always selects `gzip`. -/
theorem selectUsedEncoding_of_supported (h : GoString)
    (hs : isEncodingSupported h = true) : selectUsedEncoding h = "gzip".toList := by
  obtain ⟨p, hp, htok⟩ := (isEncodingSupportedLoop_iff _).mp hs
  exact selectUsedEncodingLoop_gzip _ [] (gzip_piece_transfer h p hp htok)

/-! ## Lemmas on the tokens of `selectUsedEncoding` -/

theorem trimLeftSpace_append_plain_aux (g : Char) (hg : plainByte g) (n : Nat) :
    ∀ t : GoString, t.length ≤ n → trimLeftSpace (t ++ [g]) = trimLeftSpace t ++ [g] := by
  have hg2 : ∀ a, isSpace2 a g = false := fun a => isSpace2_false_right a hg.2
  have hg3 : ∀ a b, isSpace3 a b g = false := fun a b => isSpace3_false_right a b hg.2
  induction n with
  | zero =>
    intro t ht
    have : t = [] := List.length_eq_zero.mp (by omega)
    subst this
    simp [trimLeftSpace, hg.1]
  | succ n ih =>
    intro t ht
    match t, ht with
    | [], _ => simp [trimLeftSpace, hg.1]
    | a :: t1, ht =>
      have ht1 : t1.length ≤ n := by simpa using ht
      by_cases ha : asciiSpace a = true
      · rw [List.cons_append, trimLeftSpace_one a _ ha, trimLeftSpace_one a _ ha]
        exact ih t1 ht1
      · have ha' : asciiSpace a = false := by simpa using ha
        match t1, ht1 with
        | [], _ => simp [trimLeftSpace, ha', hg2 a]
        | b :: t2, ht1 =>
          by_cases hab : isSpace2 a b = true
          · rw [List.cons_append, List.cons_append, trimLeftSpace_two a b _ hab,
              trimLeftSpace_two a b _ hab]
            exact ih t2 (by simp at ht1; omega)
          · have hab' : isSpace2 a b = false := by simpa using hab
            match t2, ht1 with
            | [], _ => simp [trimLeftSpace, ha', hab', hg3 a b]
            | c :: t3, ht1 =>
              by_cases habc : isSpace3 a b c = true
              · rw [List.cons_append, List.cons_append, List.cons_append,
                  trimLeftSpace_three a b c _ habc, trimLeftSpace_three a b c _ habc]
                exact ih t3 (by simp at ht1; omega)
              · have habc' : isSpace3 a b c = false := by simpa using habc
                simp [trimLeftSpace, ha', hab', habc']

/-- The token of a piece that ends with its comma: only the white space before
the text is removed. -/
theorem encodingToken_comma (x : GoString) :
    encodingToken (x ++ [',']) = trimLeftSpace x := by
  have hc : plainByte ',' := ⟨by decide, by decide⟩
  have hl := trimLeftSpace_append_plain_aux ',' hc x.length x (le_refl _)
  have hts : TrimSpace (x ++ [',']) = trimLeftSpace x ++ [','] := by
    unfold TrimSpace
    rw [hl, List.reverse_append, List.reverse_singleton, List.singleton_append,
      trimRightSpaceRev_plain ',' _ hc]
    simp
  unfold encodingToken TrimSuffix
  rw [hts]
  have hsuf : [','].isSuffixOf (trimLeftSpace x ++ [',']) = true :=
    List.isSuffixOf_iff_suffix.mpr ⟨trimLeftSpace x, rfl⟩
  rw [if_pos hsuf]
  exact List.take_left' (by simp)

/-- The token of a piece without comma is the piece trimmed on both sides. -/
theorem encodingToken_no_comma (t : GoString) (ht : ',' ∉ t) :
    encodingToken t = TrimSpace t := by
  obtain ⟨w1, w2, _, _, hsplit⟩ := TrimSpace_split t
  have hnc : ',' ∉ TrimSpace t := by
    intro h
    apply ht
    rw [hsplit]
    simp [h]
  unfold encodingToken TrimSuffix
  have hsuf : ¬ ([','].isSuffixOf (TrimSpace t) = true) := by
    intro h
    obtain ⟨u, hu⟩ := List.isSuffixOf_iff_suffix.mp h
    apply hnc
    rw [← hu]
    simp
  rw [if_neg hsuf]

theorem selectUsedEncodingLoop_last (e used : GoString) (s : GoString)
    (he : encodingToken s = e) :
    selectUsedEncodingLoop [s] used = selectByTokens [e] used := by
  unfold selectUsedEncodingLoop selectUsedEncodingLoop selectByTokens
  rw [he]
  by_cases hg : "gzip".toList = e
  · simp [hg.symm]
  · have hgc : ¬ (['g', 'z', 'i', 'p'] : GoString) = e := hg
    have hgc' : ¬ e = (['g', 'z', 'i', 'p'] : GoString) := fun h => hg h.symm
    by_cases hu : used = []
    · by_cases hn : e = []
      · simp [hgc, hgc', hu, hn]
      · simp [hgc, hgc', hu, hn]
    · simp [hgc, hgc', hu]

theorem selectByTokens_cons (e : GoString) (T : List GoString) (used : GoString)
    (hg : ¬ "gzip".toList = e) :
    selectByTokens (e :: T) used =
      selectByTokens T (if used = [] then e else used) := by
  unfold selectByTokens
  have hg' : ¬ e = "gzip".toList := fun h => hg h.symm
  by_cases hT : "gzip".toList ∈ T
  · have hTc : (['g', 'z', 'i', 'p'] : GoString) ∈ T := hT
    simp [hTc]
  · have hmem : ¬ "gzip".toList ∈ e :: T := by
      simp only [List.mem_cons, not_or]
      exact ⟨hg, hT⟩
    rw [if_neg hmem, if_neg hT]
    by_cases hu : used = []
    · by_cases hn : e = []
      · simp [hu, hn]
      · simp [hu, hn]
    · simp [hu]

/-- The loop of `selectUsedEncoding` follows the selection rule on the trimmed
comma-separated tokens when no white space stands before a comma. -/
theorem selectUsedEncodingLoop_tokens (n : Nat) :
    ∀ (s used : GoString), s.length ≤ n →
      (∀ t ∈ (genSplitLoop [','] 0 n s).dropLast, TrimSpace t = trimLeftSpace t) →
      selectUsedEncodingLoop (genSplitLoop [','] 1 n s) used =
        selectByTokens ((genSplitLoop [','] 0 n s).map TrimSpace) used := by
  induction n with
  | zero =>
    intro s used hs _
    have hnil : s = [] := List.length_eq_zero.mp (by omega)
    subst hnil
    exact selectUsedEncodingLoop_last _ used [] (encodingToken_no_comma [] (by simp))
  | succ n ih =>
    intro s used hs hpad
    rcases char_first_occurrence ',' s with h | ⟨x, y, hxy, hx⟩
    · rw [genSplitLoop_char_last ',' 1 _ s h, genSplitLoop_char_last ',' 0 _ s h]
      exact selectUsedEncodingLoop_last _ used s (encodingToken_no_comma s h)
    · subst hxy
      have hy : y.length ≤ n := by
        simp at hs
        omega
      rw [genSplitLoop_char_cons0 ',' n x y hx] at hpad
      rw [genSplitLoop_char_cons1 ',' n x y hx, genSplitLoop_char_cons0 ',' n x y hx]
      have hne := genSplitLoop_ne_nil [','] 0 n y
      have hdl : (x :: genSplitLoop [','] 0 n y).dropLast =
          x :: (genSplitLoop [','] 0 n y).dropLast := by
        cases hgl : genSplitLoop [','] 0 n y with
        | nil => exact absurd hgl hne
        | cons a t => rfl
      rw [hdl] at hpad
      have hxe : encodingToken (x ++ [',']) = TrimSpace x := by
        rw [encodingToken_comma, hpad x (List.mem_cons_self _ _)]
      have hrec := ih y (if used = [] then TrimSpace x else used) hy
        (fun t ht => hpad t (List.mem_cons_of_mem _ ht))
      rw [List.map_cons]
      by_cases hg : "gzip".toList = TrimSpace x
      · unfold selectUsedEncodingLoop selectByTokens
        simp only [hxe, hg.symm, if_true, List.mem_cons, true_or]
      · rw [selectByTokens_cons _ _ _ hg, ← hrec]
        conv_lhs => unfold selectUsedEncodingLoop
        simp only [hxe, hg, if_false]

/-! ## Lemmas on `compressContent` -/

theorem fmtInt_natCast (n : Nat) : fmtInt (n : Int) = Nat.toDigits 10 n := by
  unfold fmtInt
  have : ¬ ((n : Int) < 0) := by omega
  rw [if_neg this]
  simp

theorem calcContentLength_headers (r : Response) :
    r.calcContentLength.Body = r.Body ∧ r.calcContentLength.Status = r.Status ∧
    mapGet r.calcContentLength.Headers "Content-Length".toList =
      some (newHeader "Content-Length".toList (Nat.toDigits 10 r.Body.length)) ∧
    ∀ k, k ≠ "Content-Length".toList →
      mapGet r.calcContentLength.Headers k = mapGet r.Headers k := by
  refine ⟨rfl, rfl, ?_, ?_⟩
  · simp only [Response.calcContentLength, Response.setHeader, fmtInt_natCast]
    exact mapGet_mapSet_self _ _ _
  · intro k hk
    simp only [Response.calcContentLength, Response.setHeader]
    exact mapGet_mapSet_other _ _ _ _ hk

theorem compressContent_not_supported (encodeBody : Encoder) (req : Request)
    (res : Response)
    (h : mapGet req.Headers "Accept-Encoding".toList = none ∨
      ∃ encoding, mapGet req.Headers "Accept-Encoding".toList = some encoding ∧
        isEncodingSupported encoding = false) :
    compressContent encodeBody req res = (Result.ok (), res.calcContentLength) := by
  unfold compressContent compressContentBody
  rcases h with h | ⟨encoding, h1, h2⟩
  · simp only [h]
  · simp only [h1, h2, Bool.not_false, if_true]

/-! ## Lemmas on slug names and the route table -/

theorem getSlugType_wildcart_iff (s : GoString) :
    getSlugType s = SlugType.WILDCART ↔ ∃ mid, s = '[' :: (mid ++ [']']) := by
  constructor
  · intro h
    have hlen := getSlugType_wildcart_length s h
    unfold getSlugType at h
    have hne : ¬ s.length = 0 := by omega
    rw [if_neg hne] at h
    by_cases hc : s.head? = some '[' ∧ s.getLast? = some ']'
    · obtain ⟨t, ht⟩ := List.head?_eq_some_iff.mp hc.1
      obtain ⟨u, hu⟩ := List.getLast?_eq_some_iff.mp hc.2
      subst ht
      cases u with
      | nil =>
        simp only [List.nil_append, List.cons.injEq] at hu
        exact absurd hu.1 (by decide)
      | cons a u =>
        have h1 : a = '[' ∧ u ++ [']'] = t := by
          simpa using hu.symm
        exact ⟨u, by rw [← h1.2]⟩
    · rw [if_neg hc] at h
      exact SlugType.noConfusion h
  · rintro ⟨mid, rfl⟩
    have hl : ('[' :: (mid ++ [']'])).getLast? = some ']' := by
      rw [show '[' :: (mid ++ [']']) = ('[' :: mid) ++ [']'] from rfl]
      exact List.getLast?_concat _
    simp [getSlugType, hl]

theorem getSlugName_wildcart (mid : GoString) :
    getSlugName ('[' :: (mid ++ [']'])) SlugType.WILDCART = some mid := by
  unfold getSlugName
  have hlen : 2 ≤ ('[' :: (mid ++ [']'])).length := by simp
  simp only [hlen, if_true]
  have h1 : ('[' :: (mid ++ [']'])).length - 1 = ('[' :: mid).length := by simp
  have h2 : '[' :: (mid ++ [']']) = ('[' :: mid) ++ [']'] := by simp
  rw [h1, h2, List.take_left]
  rfl

theorem newRouteSlugs_names (els : List GoString) (slgs : List Slug)
    (h : newRouteSlugs els = some slgs) :
    ∀ slg ∈ slgs, slg.value ∈ els ∧ slg.sType = getSlugType slg.value ∧
      getSlugName slg.value slg.sType = some slg.name := by
  induction els generalizing slgs with
  | nil =>
    simp only [newRouteSlugs, Option.some.injEq] at h
    subst h
    intro slg hs
    simp at hs
  | cons a t ih =>
    obtain ⟨n, hn⟩ := getSlugName_isSome a
    obtain ⟨rest, hrest, _⟩ := newRouteSlugs_isSome t
    simp only [newRouteSlugs, hn, hrest, Option.some.injEq] at h
    subst h
    intro slg hslg
    rcases List.mem_cons.mp hslg with h | h
    · subst h
      exact ⟨List.mem_cons_self _ _, rfl, hn⟩
    · obtain ⟨h1, h2, h3⟩ := ih rest hrest slg h
      exact ⟨List.mem_cons_of_mem _ h1, h2, h3⟩

/-- Every stored route was built by `newRoute` from a pattern without `[]`. -/
theorem Reachable.route_built {r : Router} (hr : Reachable r) :
    ∀ k route, route ∈ r.paths k →
      newRouteSlugs (Split route.path ['/']) = some route.slugs ∧
      "[]".toList ∉ Split route.path ['/'] := by
  induction hr with
  | new => intro k route h; simp [NewRouter] at h
  | suscribe r m p f _ ih =>
    obtain ⟨nr, _, hp, _, _, _, hs, heq⟩ := Suscribe_eq r m p f
    rw [heq]
    intro k route h
    split at h
    · exact ih k route h
    · rename_i hb
      split at h
      · exact ih k route h
      · simp only [pathsAfter] at h
        by_cases hk : k = toUint16 (Split p ['/']).length
        · rw [if_pos hk] at h
          rcases List.mem_append.mp h with h | h
          · exact ih _ route h
          · have : route = nr := by simpa using h
            rw [this, hp]
            exact ⟨hs, hb⟩
        · rw [if_neg hk] at h
          exact ih k route h

/-- Within one bucket no two routes have the same verb and pattern. -/
theorem Reachable.bucket_pairwise {r : Router} (hr : Reachable r) :
    ∀ k, (r.paths k).Pairwise (fun a b => ¬ (a.method = b.method ∧ a.path = b.path)) := by
  induction hr with
  | new => intro k; simp [NewRouter]
  | suscribe r m p f _ ih =>
    obtain ⟨nr, _, hp, hm, _, _, _, heq⟩ := Suscribe_eq r m p f
    rw [heq]
    intro k
    split
    · exact ih k
    · split
      · exact ih k
      · rename_i hd
        simp only [pathsAfter]
        by_cases hk : k = toUint16 (Split p ['/']).length
        · rw [if_pos hk, List.pairwise_append]
          refine ⟨ih _, List.pairwise_singleton _ _, ?_⟩
          intro a ha b hb
          have hbn : b = nr := by simpa using hb
          subst hbn
          rintro ⟨h1, h2⟩
          exact hd ((alreadySuscribed_iff _ _ _).mpr ⟨a, ha, h1.trans hm, h2.trans hp⟩)
        · rw [if_neg hk]
          exact ih k

theorem same_bucket_index {l : List Route}
    (hp : l.Pairwise (fun a b => ¬ (a.method = b.method ∧ a.path = b.path)))
    (i j : Nat) (a b : Route) (hi : l[i]? = some a) (hj : l[j]? = some b)
    (hm : a.method = b.method) (hpath : a.path = b.path) : i = j := by
  obtain ⟨hil, hia⟩ := List.getElem?_eq_some_iff.mp hi
  obtain ⟨hjl, hjb⟩ := List.getElem?_eq_some_iff.mp hj
  have hall := List.pairwise_iff_getElem.mp hp
  rcases Nat.lt_trichotomy i j with h | h | h
  · exact absurd ⟨by rw [hia, hjb]; exact hm, by rw [hia, hjb]; exact hpath⟩
      (hall i j hil hjl h)
  · exact h
  · exact absurd ⟨by rw [hia, hjb]; exact hm.symm, by rw [hia, hjb]; exact hpath.symm⟩
      (hall j i hjl hil h)

theorem wildcart_name_ne_nil (value name : GoString)
    (ht : getSlugType value = SlugType.WILDCART) (hv : value ≠ "[]".toList)
    (hn : getSlugName value SlugType.WILDCART = some name) : name ≠ [] := by
  obtain ⟨mid, hmid⟩ := (getSlugType_wildcart_iff value).mp ht
  subst hmid
  rw [getSlugName_wildcart] at hn
  have : mid = name := Option.some.inj hn
  subst this
  intro h
  subst h
  exact hv rfl

theorem findHandlerBros_length (m : HttpVerb) (els : List GoString) (bros : List Route)
    (route : Route) (h : findHandlerBros m els bros = some route) :
    route.slugs.length = els.length := by
  induction bros with
  | nil => simp [findHandlerBros] at h
  | cons bro rest ih =>
    unfold findHandlerBros at h
    by_cases hl : bro.slugs.length = els.length
    · simp only [hl, ne_eq, not_true_eq_false, if_false] at h
      by_cases hs : findHandlerSegs bro m els (List.range els.length) = true
      · simp only [hs, if_true, Option.some.injEq] at h
        subst h
        exact hl
      · simp only [hs, Bool.false_eq_true, if_false] at h
        exact ih h
    · simp only [hl, ne_eq, not_false_eq_true, if_true] at h
      exact ih h

theorem compressContentBody_cases (encodeBody : Encoder) (req : Request) (res : Response) :
    compressContentBody encodeBody req res = (Result.ok (), res) ∨
    (∃ e, compressContentBody encodeBody req res = (Result.err e, res)) ∨
    (∃ c, compressContentBody encodeBody req res =
      (Result.ok (), (Response.calcContentLength { res with Body := c }).setHeader
        "Content-Encoding".toList "gzip".toList)) := by
  unfold compressContentBody
  cases hh : mapGet req.Headers "Accept-Encoding".toList with
  | none => exact Or.inl rfl
  | some encoding =>
    cases hs : isEncodingSupported encoding with
    | false =>
      left
      simp only [hs, Bool.not_false, if_true]
    | true =>
      have hsel := selectUsedEncoding_of_supported encoding hs
      cases he : encodeBody res.Body with
      | error e =>
        right; left
        refine ⟨e, ?_⟩
        simp only [hs, hsel, getEncodingFunction, he, Bool.not_true, Bool.false_eq_true,
          if_false, if_true]
      | ok c =>
        right; right
        refine ⟨c, ?_⟩
        simp only [hs, hsel, getEncodingFunction, he, Bool.not_true, Bool.false_eq_true,
          if_false, if_true]

/-! ## Lemmas on request parsing -/

theorem parseHeaderLine_ok (line : GoString) (h : HeaderLineOk line) :
    ∃ nv, parseHeaderLine line = some nv := by
  obtain ⟨name, c, rest, hline, hname, hc⟩ := h
  subst hline
  unfold parseHeaderLine Split genSplit
  have hlen : (name ++ ':' :: c :: rest).length = (name.length + rest.length + 1) + 1 := by
    simp; omega
  rw [hlen, genSplitLoop_char_cons0 ':' _ name (c :: rest) hname]
  rcases char_first_occurrence ':' (c :: rest) with h1 | ⟨x, y, hxy, hx⟩
  · rw [genSplitLoop_char_last ':' 0 _ _ h1]
    exact ⟨(name, rest), by simp⟩
  · cases x with
    | nil =>
      simp only [List.nil_append, List.cons.injEq] at hxy
      exact absurd hxy.1 hc
    | cons a x' =>
      rw [hxy, genSplitLoop_char_cons0 ':' _ (a :: x') y hx]
      exact ⟨(name, x'), by simp⟩

/-- The header loop stops at the first empty line when every line before it can
be read. -/
theorem headersLoop_divider (reqParts : List GoString) (k : Nat) (hk1 : 1 ≤ k)
    (hk : reqParts.getD k [] = [])
    (hlines : ∀ j, 1 ≤ j → j < k →
      reqParts.getD j [] ≠ [] ∧ ∃ nv, parseHeaderLine (reqParts.getD j []) = some nv) :
    ∀ (n j : Nat) (hs : GoMap GoString), j ≤ k → k < j + n →
      ∃ hs', headersLoop reqParts (List.range' j n) hs = some ((k : Int), hs') := by
  intro n
  induction n with
  | zero => intro j hs h1 h2; omega
  | succ n ih =>
    intro j hs h1 h2
    rw [List.range'_succ]
    unfold headersLoop
    by_cases hj0 : j = 0
    · rw [if_pos hj0]
      exact ih (j + 1) hs (by omega) (by omega)
    · rw [if_neg hj0]
      by_cases hjk : j = k
      · subst hjk
        rw [if_pos hk]
        exact ⟨hs, rfl⟩
      · obtain ⟨hne, ⟨nv, hnv⟩⟩ := hlines j (by omega) (by omega)
        rw [if_neg hne, hnv]
        exact ih (j + 1) _ (by omega) (by omega)

theorem parseReqLine_of_split (line m p v : GoString) (h : Split line [' '] = [m, p, v]) :
    parseReqLine line = Except.ok [m, p, v] := by
  unfold parseReqLine
  simp [h]

/-- Without an empty line among the lines it examines, the header loop runs to
its end and leaves `headersDividers` at -1. -/
theorem headersLoop_no_divider (reqParts : List GoString) (L : Nat)
    (hlines : ∀ j, 1 ≤ j → j < L →
      reqParts.getD j [] ≠ [] ∧ ∃ nv, parseHeaderLine (reqParts.getD j []) = some nv) :
    ∀ (n j : Nat) (hs : GoMap GoString), j + n = L →
      ∃ hs', headersLoop reqParts (List.range' j n) hs = some ((-1 : Int), hs') := by
  intro n
  induction n with
  | zero =>
    intro j hs _
    exact ⟨hs, rfl⟩
  | succ n ih =>
    intro j hs hL
    rw [List.range'_succ]
    unfold headersLoop
    by_cases hj0 : j = 0
    · rw [if_pos hj0]
      exact ih (j + 1) hs (by omega)
    · rw [if_neg hj0]
      obtain ⟨hne, ⟨nv, hnv⟩⟩ := hlines j (by omega) (by omega)
      rw [if_neg hne, hnv]
      exact ih (j + 1) _ (by omega)

theorem removeCRLF_cons_other (c : Char) (t : GoString)
    (h : ¬ (['\r', '\n'].isPrefixOf (c :: t) = true)) :
    removeCRLF (c :: t) = c :: removeCRLF t := by
  cases t with
  | nil => simp [removeCRLF]
  | cons d t' =>
    have hcd : ¬ (c = '\r' ∧ d = '\n') := by
      rintro ⟨h1, h2⟩
      apply h
      subst h1 h2
      simp [List.isPrefixOf]
    rw [removeCRLF, if_neg hcd]

theorem removeCRLF_cons_crlf (c : Char) (t : GoString)
    (h : ['\r', '\n'].isPrefixOf (c :: t) = true) :
    removeCRLF (c :: t) = removeCRLF ((c :: t).drop 2) := by
  obtain ⟨y, hy⟩ := List.isPrefixOf_iff_prefix.mp h
  have h2 : c = '\r' ∧ t = '\n' :: y := by
    have : '\r' :: '\n' :: y = c :: t := by simpa using hy
    simp only [List.cons.injEq] at this
    exact ⟨this.1.symm, this.2.symm⟩
  obtain ⟨hc, ht⟩ := h2
  subst hc ht
  simp [removeCRLF]

theorem removeCRLF_of_Index_none :
    ∀ s : GoString, Index s ['\r', '\n'] = none → removeCRLF s = s := by
  intro s
  induction s with
  | nil => intro _; rfl
  | cons c t ih =>
    intro h
    by_cases hp : ['\r', '\n'].isPrefixOf (c :: t) = true
    · simp [Index, hp] at h
    · have ht : Index t ['\r', '\n'] = none := by
        simpa [Index, hp] using h
      rw [removeCRLF_cons_other c t hp, ih ht]

theorem removeCRLF_of_Index_some :
    ∀ (s : GoString) (m : Nat), Index s ['\r', '\n'] = some m →
      removeCRLF s = s.take m ++ removeCRLF (s.drop (m + 2)) := by
  intro s
  induction s with
  | nil =>
    intro m h
    simp [Index] at h
  | cons c t ih =>
    intro m h
    by_cases hp : ['\r', '\n'].isPrefixOf (c :: t) = true
    · have hm : m = 0 := by
        simp only [Index, hp, if_true, Option.some.injEq] at h
        exact h.symm
      subst hm
      rw [removeCRLF_cons_crlf c t hp]
      rfl
    · simp only [Index, hp, Bool.false_eq_true, if_false, Option.map_eq_some'] at h
      obtain ⟨m', hm', hmm⟩ := h
      subst hmm
      rw [removeCRLF_cons_other c t hp, ih m' hm']
      rfl

/-- The fragments of a buffer, put together again, are the buffer without its
`\r\n`. -/
theorem flatten_genSplitLoop_crlf (fuel : Nat) :
    ∀ s : GoString, s.length ≤ fuel →
      (genSplitLoop ['\r', '\n'] 0 fuel s).flatten = removeCRLF s := by
  induction fuel with
  | zero =>
    intro s hs
    have hnil : s = [] := List.length_eq_zero.mp (by omega)
    subst hnil
    rfl
  | succ fuel ih =>
    intro s hs
    rw [genSplitLoop]
    cases hI : Index s ['\r', '\n'] with
    | none =>
      simp only [List.flatten_cons, List.flatten_nil, List.append_nil]
      exact (removeCRLF_of_Index_none s hI).symm
    | some m =>
      simp only [List.flatten_cons]
      rw [removeCRLF_of_Index_some s m hI, ih]
      · rfl
      · simp only [List.length_drop, List.length_cons, List.length_nil]
        omega

/-! ## Claims -/

/-- C1: `findHandler` returns the earliest route of the bucket selected by the
number of path segments whose verb is the request verb and whose every slug
matches the segment at its position (a WILDCART slug always matches, a LITERAL
slug matches exactly when its text is the segment); a route with another verb is
skipped and the scan goes on; the result is nil exactly when no route of the
bucket matches; with only `/users/admin` subscribed, `/users/42` is not matched. -/
theorem findHandler_earliest_match (r : Router) (req : Request) :
    (∀ (s : Slug) (str : GoString), s.doesMatch str = true ↔
        (s.sType = SlugType.WILDCART ∨ (s.sType = SlugType.LITERAL ∧ s.value = str))) ∧
    (∀ route : Route, r.findHandler req = some route ↔
        ∃ pre post,
          r.paths (toUint16 (Split req.path ['/']).length) = pre ++ route :: post ∧
          route.Matches req.method (Split req.path ['/']) ∧
          ∀ b ∈ pre, ¬ b.Matches req.method (Split req.path ['/'])) ∧
    (r.findHandler req = none ↔
        ∀ b ∈ r.paths (toUint16 (Split req.path ['/']).length),
          ¬ b.Matches req.method (Split req.path ['/'])) ∧
    (∀ (bro : Route) (rest : List Route), bro.method ≠ req.method →
        findHandlerBros req.method (Split req.path ['/']) (bro :: rest) =
          findHandlerBros req.method (Split req.path ['/']) rest) ∧
    (∀ f : routeHandler,
        ((NewRouter.Suscribe HttpVerb.GET "/users/admin".toList f).2).findHandler
          (requestOf HttpVerb.GET "/users/42".toList) = none) := by
  have hne := Split_ne_nil req.path ['/']
  refine ⟨doesMatch_iff, ?_, ?_, ?_, ?_⟩
  · intro route
    exact findHandlerBros_some req.method _ hne _ route
  · exact findHandlerBros_none req.method _ hne _
  · intro bro rest hv
    classical
    rw [findHandlerBros_cons req.method _ hne]
    have : ¬ bro.Matches req.method (Split req.path ['/']) := fun h => hv h.1
    simp [this]
  · intro f
    rfl

/-- C2: starting from a new router, when `Suscribe(v, p1, h1)` and then
`Suscribe(v, p2, h2)` both succeed for two distinct patterns with the same number
of segments, every request with verb `v` whose path is matched by the slugs of
the route built for `p1` is answered by that route, whatever `p2` matches. -/
theorem first_suscribed_route_wins (v : HttpVerb) (p1 p2 : GoString)
    (h1 h2 : routeHandler) (r1 r2 : Router) (req : Request) (route1 : Route)
    (_hdist : p1 ≠ p2)
    (_hlen : (Split p1 ['/']).length = (Split p2 ['/']).length)
    (hs1 : NewRouter.Suscribe v p1 h1 = (none, r1))
    (hs2 : r1.Suscribe v p2 h2 = (none, r2))
    (hroute : newRoute p1 v (Split p1 ['/']) h1 = some route1)
    (hverb : req.method = v)
    (hmatch : List.Forall₂ (fun (s : Slug) (e : GoString) => s.doesMatch e = true)
      route1.slugs (Split req.path ['/'])) :
    r2.findHandler req = some route1 ∧ route1.path = p1 ∧ route1.method = v ∧
      route1.handler = h1 := by
  obtain ⟨route, hn1, hp1, hm1, hh1, hl1, _, _, hr1⟩ := Suscribe_ok _ _ _ _ _ hs1
  obtain ⟨route2, _, _, _, _, _, _, _, hr2⟩ := Suscribe_ok _ _ _ _ _ hs2
  have hsame : route = route1 := Option.some.inj (hn1.symm.trans hroute)
  subst hsame
  refine ⟨?_, hp1, hm1, hh1⟩
  have hlen1 : (Split req.path ['/']).length = (Split p1 ['/']).length := by
    rw [← hl1]; exact hmatch.length_eq.symm
  have hne := Split_ne_nil req.path ['/']
  have hb1 : r1.paths (toUint16 (Split p1 ['/']).length) = [route] := by
    rw [hr1]; simp [pathsAfter, NewRouter]
  have hb2 : ∃ post, r2.paths (toUint16 (Split p1 ['/']).length) = [] ++ route :: post := by
    rw [hr2]
    simp only [pathsAfter]
    by_cases hk : toUint16 (Split p1 ['/']).length = toUint16 (Split p2 ['/']).length
    · rw [if_pos hk, ← hk, hb1]
      exact ⟨[route2], rfl⟩
    · rw [if_neg hk, hb1]
      exact ⟨[], rfl⟩
  obtain ⟨post, hpost⟩ := hb2
  unfold Router.findHandler
  simp only
  rw [findHandlerBros_some req.method _ hne]
  refine ⟨[], post, ?_, ⟨by rw [hm1, hverb], hmatch⟩, by simp⟩
  rw [hlen1]
  exact hpost

/-- C2, concrete cases: `/[slug]` subscribed before `/PETS` answers `GET /PETS`,
and `/PETS` subscribed before `/[slug]` answers it too. -/
theorem first_suscribed_route_wins_witness :
    ((((NewRouter.Suscribe HttpVerb.GET "/[slug]".toList defaultNotFound).2).Suscribe
        HttpVerb.GET "/PETS".toList defaultMalformed).2.findHandler
          (requestOf HttpVerb.GET "/PETS".toList)
      = some { method := HttpVerb.GET, path := "/[slug]".toList,
               slugs := [{ sType := SlugType.LITERAL, value := [], name := [] },
                         { sType := SlugType.WILDCART, value := "[slug]".toList,
                           name := "slug".toList }],
               handler := defaultNotFound }) ∧
    ((((NewRouter.Suscribe HttpVerb.GET "/PETS".toList defaultNotFound).2).Suscribe
        HttpVerb.GET "/[slug]".toList defaultMalformed).2.findHandler
          (requestOf HttpVerb.GET "/PETS".toList)
      = some { method := HttpVerb.GET, path := "/PETS".toList,
               slugs := [{ sType := SlugType.LITERAL, value := [], name := [] },
                         { sType := SlugType.LITERAL, value := "PETS".toList,
                           name := "PETS".toList }],
               handler := defaultNotFound }) :=
  ⟨(first_suscribed_route_wins HttpVerb.GET "/[slug]".toList "/PETS".toList
      defaultNotFound defaultMalformed _ _ (requestOf HttpVerb.GET "/PETS".toList) _
      (by decide) (by decide) rfl rfl rfl rfl
      (List.Forall₂.cons rfl (List.Forall₂.cons rfl List.Forall₂.nil))).1,
   (first_suscribed_route_wins HttpVerb.GET "/PETS".toList "/[slug]".toList
      defaultNotFound defaultMalformed _ _ (requestOf HttpVerb.GET "/PETS".toList) _
      (by decide) (by decide) rfl rfl rfl rfl
      (List.Forall₂.cons rfl (List.Forall₂.cons rfl List.Forall₂.nil))).1⟩

/-- C3 as stated fails when two wildcards share a name: `Suscribe` accepts the
pattern `/[id]/[id]`; on its route and the path `/1/2`, `parseSlugs` returns no
error, the slug at index 1 is a WILDCART named `id` and segment 1 is `1`, yet
`Slugs["id"]` is `2`.  Hence the claim does not hold for every index. -/
theorem parseSlugs_shared_name_counterexample :
    (∃ (route : Route) (req' : Request),
      (NewRouter.Suscribe HttpVerb.GET "/[id]/[id]".toList defaultNotFound).1 = none ∧
      newRoute "/[id]/[id]".toList HttpVerb.GET (Split "/[id]/[id]".toList ['/'])
        defaultNotFound = some route ∧
      route.slugs.length = (Split "/1/2".toList ['/']).length ∧
      (requestOf HttpVerb.GET "/1/2".toList).parseSlugs route = (none, req') ∧
      route.slugs[1]? = some { sType := SlugType.WILDCART, value := "[id]".toList,
                               name := "id".toList } ∧
      (Split "/1/2".toList ['/'])[1]? = some "1".toList ∧
      mapGet req'.Slugs "id".toList = some "2".toList) ∧
    ¬ (∀ (req : Request) (route : Route) (req' : Request),
        route.slugs.length = (Split req.path ['/']).length →
        req.parseSlugs route = (none, req') →
        ∀ (i : Nat) (slg : Slug), route.slugs[i]? = some slg →
          slg.sType = SlugType.WILDCART → slg.name ≠ [] →
          ∃ seg, (Split req.path ['/'])[i]? = some seg ∧
            mapGet req'.Slugs slg.name = some seg) := by
  constructor
  · exact ⟨_, _, rfl, rfl, rfl, rfl, rfl, rfl, rfl⟩
  intro h
  obtain ⟨seg, h1, h2⟩ := h (requestOf HttpVerb.GET "/1/2".toList)
    { method := HttpVerb.GET, path := "/[id]/[id]".toList,
      slugs := [{ sType := SlugType.LITERAL, value := [], name := [] },
                { sType := SlugType.WILDCART, value := "[id]".toList, name := "id".toList },
                { sType := SlugType.WILDCART, value := "[id]".toList, name := "id".toList }],
      handler := defaultNotFound }
    _ rfl rfl 1
    { sType := SlugType.WILDCART, value := "[id]".toList, name := "id".toList }
    rfl rfl (by decide)
  have h3 : seg = "1".toList := by
    have : (some "1".toList : Option GoString) = some seg := h1
    exact (Option.some.inj this).symm
  subst h3
  revert h2
  decide

/-- C3, amended: when the slug count equals the number of path segments,
`parseSlugs` returns no error, and for every index `i` whose slug is a WILDCART
with a non-empty name `n` that no later WILDCART slug carries, `Slugs[n]` is the
`i`-th path segment; so `/users/[id]` and `/users/42` give `Slugs["id"] = "42"`. -/
theorem parseSlugs_binds_last_wildcard (req : Request) (route : Route)
    (hlen : route.slugs.length = (Split req.path ['/']).length) :
    ∃ req', req.parseSlugs route = (none, req') ∧
      ∀ (i : Nat) (slg : Slug), route.slugs[i]? = some slg →
        slg.sType = SlugType.WILDCART → slg.name ≠ [] →
        (∀ (j : Nat) (slg2 : Slug), i < j → route.slugs[j]? = some slg2 →
          slg2.sType = SlugType.WILDCART → slg2.name ≠ slg.name) →
        ∃ seg, (Split req.path ['/'])[i]? = some seg ∧
          mapGet req'.Slugs slg.name = some seg := by
  refine ⟨{ req with Slugs := (parseSlugsLoop route.slugs (Split req.path ['/'])
      (List.range route.slugs.length) req.Slugs) }, ?_, ?_⟩
  · unfold Request.parseSlugs
    rw [if_neg (by simpa using hlen)]
  intro i slg hi hw hn hlast
  have hil : i < route.slugs.length := by
    by_contra hc
    rw [List.getElem?_eq_none (by omega)] at hi
    exact Option.noConfusion hi
  have hgi : route.slugs.getD i default = slg := by
    simp [List.getD_eq_getElem?_getD, hi]
  have hie : i < (Split req.path ['/']).length := by omega
  refine ⟨(Split req.path ['/']).getD i [], ?_, ?_⟩
  · rw [List.getD_eq_getElem _ _ hie]
    exact List.getElem?_eq_getElem hie
  · have hmain := parseSlugsLoop_range route.slugs (Split req.path ['/']) req.Slugs
      route.slugs.length i hil (by rw [hgi]; exact hw) (by rw [hgi]; exact hn)
      (by
        intro j hij hjl hjw
        have hj : route.slugs[j]? = some (route.slugs.getD j default) := by
          rw [List.getD_eq_getElem _ _ hjl]
          exact List.getElem?_eq_getElem hjl
        rw [hgi]
        exact hlast j _ hij hj hjw)
    rw [hgi] at hmain
    exact hmain

/-- C3, concrete case: the route of `/users/[id]` and the path `/users/42` bind
`Slugs["id"]` to `42`. -/
theorem parseSlugs_binds_last_wildcard_witness :
    ∃ req',
      (requestOf HttpVerb.GET "/users/42".toList).parseSlugs
        { method := HttpVerb.GET, path := "/users/[id]".toList,
          slugs := [{ sType := SlugType.LITERAL, value := [], name := [] },
                    { sType := SlugType.LITERAL, value := "users".toList,
                      name := "users".toList },
                    { sType := SlugType.WILDCART, value := "[id]".toList,
                      name := "id".toList }],
          handler := defaultNotFound } = (none, req') ∧
      mapGet req'.Slugs "id".toList = some "42".toList := by
  obtain ⟨req', h1, h2⟩ := parseSlugs_binds_last_wildcard
    (requestOf HttpVerb.GET "/users/42".toList)
    { method := HttpVerb.GET, path := "/users/[id]".toList,
      slugs := [{ sType := SlugType.LITERAL, value := [], name := [] },
                { sType := SlugType.LITERAL, value := "users".toList,
                  name := "users".toList },
                { sType := SlugType.WILDCART, value := "[id]".toList,
                  name := "id".toList }],
      handler := defaultNotFound } (by decide)
  refine ⟨req', h1, ?_⟩
  obtain ⟨seg, h3, h4⟩ := h2 2
    { sType := SlugType.WILDCART, value := "[id]".toList, name := "id".toList }
    rfl rfl (by decide)
    (by
      intro j slg2 hj hs
      have hjlen : 3 ≤ j := by omega
      rw [List.getElem?_eq_none (by simpa using hjlen)] at hs
      exact Option.noConfusion hs)
  have h5 : seg = "42".toList := by
    have : (some "42".toList : Option GoString) = some seg := h3
    exact (Option.some.inj this).symm
  rw [h5] at h4
  exact h4

/-- C4: on a router built from `NewRouter` by `Suscribe` calls,
`Suscribe(verb, pattern, f)` panics exactly when some segment of the pattern is
`[]` or a route with this verb and this pattern string is already stored, and a
panicking call leaves the table as it was; after a successful call the same pair
is rejected, and the same pattern under another verb not yet stored for it is
accepted. -/
theorem Suscribe_rejected_exactly (r : Router) (hr : Reachable r) (verb : HttpVerb)
    (pattern : GoString) (f : routeHandler) :
    ((r.Suscribe verb pattern f).1 ≠ none ↔
        ("[]".toList ∈ Split pattern ['/'] ∨ Registered r verb pattern)) ∧
    ((r.Suscribe verb pattern f).1 ≠ none → (r.Suscribe verb pattern f).2 = r) ∧
    (∀ r' : Router, r.Suscribe verb pattern f = (none, r') →
        (∀ g : routeHandler, (r'.Suscribe verb pattern g).1 ≠ none ∧
          (r'.Suscribe verb pattern g).2 = r') ∧
        (∀ (verb2 : HttpVerb) (g : routeHandler), verb2 ≠ verb →
          ¬ Registered r verb2 pattern → (r'.Suscribe verb2 pattern g).1 = none)) := by
  refine ⟨Suscribe_rejected_iff hr verb pattern f,
    Suscribe_rejected_unchanged r verb pattern f, ?_⟩
  intro r' hok
  have hr' : Reachable r' := by
    have := Reachable.suscribe r verb pattern f hr
    rw [hok] at this
    exact this
  have hreg := Registered_after r r' verb pattern f hok
  obtain ⟨_, _, _, _, _, _, hnb, _, _⟩ := Suscribe_ok _ _ _ _ _ hok
  constructor
  · intro g
    have hrej : (r'.Suscribe verb pattern g).1 ≠ none :=
      (Suscribe_rejected_iff hr' verb pattern g).mpr
        (Or.inr ((hreg verb pattern).mpr (Or.inr ⟨rfl, rfl⟩)))
    exact ⟨hrej, Suscribe_rejected_unchanged r' verb pattern g hrej⟩
  · intro verb2 g hv hnr
    by_contra hc
    rcases (Suscribe_rejected_iff hr' verb2 pattern g).mp hc with h | h
    · exact hnb h
    · rcases (hreg verb2 pattern).mp h with h | h
      · exact hnr h
      · exact hv h.1

/-- C4, concrete case on the new router: `GET /a` is accepted, a second `GET /a`
is rejected, `POST /a` is accepted, and `GET /[]` is rejected. -/
theorem Suscribe_rejected_exactly_witness :
    Reachable NewRouter ∧
    ((NewRouter.Suscribe HttpVerb.GET "/[]".toList defaultNotFound).1 ≠ none ↔
        ("[]".toList ∈ Split "/[]".toList ['/'] ∨
          Registered NewRouter HttpVerb.GET "/[]".toList)) ∧
    (NewRouter.Suscribe HttpVerb.GET "/[]".toList defaultNotFound).1 ≠ none ∧
    (NewRouter.Suscribe HttpVerb.GET "/a".toList defaultNotFound).1 = none ∧
    (((NewRouter.Suscribe HttpVerb.GET "/a".toList defaultNotFound).2).Suscribe
        HttpVerb.GET "/a".toList defaultMalformed).1 ≠ none ∧
    (((NewRouter.Suscribe HttpVerb.GET "/a".toList defaultNotFound).2).Suscribe
        HttpVerb.POST "/a".toList defaultMalformed).1 = none := by
  have h := Suscribe_rejected_exactly NewRouter Reachable.new HttpVerb.GET "/[]".toList
    defaultNotFound
  have h2 := Suscribe_rejected_exactly NewRouter Reachable.new HttpVerb.GET "/a".toList
    defaultNotFound
  have hnone : ¬ Registered NewRouter HttpVerb.POST "/a".toList := by
    rintro ⟨k, route, hmem, _⟩
    simp [NewRouter] at hmem
  refine ⟨Reachable.new, h.1, h.1.mpr (Or.inl (by decide)), rfl, ?_, ?_⟩
  · exact ((h2.2.2 _ rfl).1 defaultMalformed).1
  · exact (h2.2.2 _ rfl).2 HttpVerb.POST defaultMalformed (by decide) hnone

/-- C5: a successful `Suscribe(verb, pattern, f)` leaves in the bucket keyed by
the number of segments of the pattern (as a `uint16`) its previous routes, in the
same order, followed by one new route with that verb, pattern and handler and
one slug per segment; every other bucket and the other router fields are as
before. -/
theorem Suscribe_appends_one_route (r r' : Router) (verb : HttpVerb) (pattern : GoString)
    (f : routeHandler) (h : r.Suscribe verb pattern f = (none, r')) :
    ∃ route : Route,
      r'.paths (toUint16 (Split pattern ['/']).length) =
        r.paths (toUint16 (Split pattern ['/']).length) ++ [route] ∧
      route.method = verb ∧ route.path = pattern ∧ route.handler = f ∧
      route.slugs.length = (Split pattern ['/']).length ∧
      route.slugs.map Slug.value = Split pattern ['/'] ∧
      (∀ slg ∈ route.slugs, slg.sType = getSlugType slg.value) ∧
      (∀ k, k ≠ toUint16 (Split pattern ['/']).length → r'.paths k = r.paths k) ∧
      r'.notFound = r.notFound ∧ r'.malformed = r.malformed ∧
      r'.strictSlash = r.strictSlash := by
  obtain ⟨route, hn, hp, hm, hh, hl, _, _, hr'⟩ := Suscribe_ok _ _ _ _ _ h
  obtain ⟨_, hn2, _, _, _, _, hs, _⟩ := Suscribe_eq r verb pattern f
  rw [hn] at hn2
  have hs' : newRouteSlugs (Split pattern ['/']) = some route.slugs := by
    rw [Option.some.inj hn2]; exact hs
  obtain ⟨hv, ht⟩ := newRouteSlugs_values _ _ hs'
  subst hr'
  refine ⟨route, by simp [pathsAfter], hm, hp, hh, hl, hv, ht, ?_, rfl, rfl, rfl⟩
  intro k hk
  simp [pathsAfter, hk]

/-- C5, concrete case: subscribing `GET /users/[id]` on the new router puts one
route with three slugs into bucket 3 and leaves the other buckets empty. -/
theorem Suscribe_appends_one_route_witness :
    ∃ route : Route,
      (NewRouter.Suscribe HttpVerb.GET "/users/[id]".toList defaultNotFound).2.paths 3 =
        [route] ∧
      route.method = HttpVerb.GET ∧ route.path = "/users/[id]".toList ∧
      route.slugs.map Slug.value = [[], "users".toList, "[id]".toList] ∧
      (∀ k, k ≠ 3 →
        (NewRouter.Suscribe HttpVerb.GET "/users/[id]".toList defaultNotFound).2.paths k
          = []) := by
  obtain ⟨route, h1, h2, h3, _, _, h6, _, h8, _⟩ :=
    Suscribe_appends_one_route NewRouter _ HttpVerb.GET "/users/[id]".toList
      defaultNotFound rfl
  exact ⟨route, h1, h2, h3, h6, fun k hk => h8 k hk⟩

/-- C6: for a response whose status has an entry in the status table,
`serialize` returns the status line `HTTP/1.1 <status> <reason>\r\n`; then, only
when the header map is not empty, every header once as `<name>: <value>\r\n` in
the order of the map iteration, followed by `\r\n`; then, only when the body is
not empty, the body followed by `\r\n`; then `\r\n`.  Status 200 with the header
`X-Test: v` and body `ok` gives `HTTP/1.1 200 OK\r\nX-Test: v\r\n\r\nok\r\n\r\n`,
and with no header nothing stands between the status line and the body. -/
theorem serialize_layout (res : Response) (iter : List GoString) (reason : GoString)
    (hst : statusCodeToMsg res.Status = some reason)
    (hiter : RangeOrder res.Headers iter) :
    (∃ hs : List Header, hs.Perm (res.Headers.map Prod.snd) ∧
      res.serialize iter = Result.ok
        ("HTTP/1.1 ".toList ++ fmtInt res.Status ++ " ".toList ++ reason ++ "\r\n".toList ++
          (if res.Headers = [] then []
            else (hs.map Header.toString).flatten ++ "\r\n".toList) ++
          (if res.Body = [] then [] else res.Body ++ "\r\n".toList) ++
          "\r\n".toList)) ∧
    Response.serialize
        { Status := 200, Body := "ok".toList,
          Headers := [("X-Test".toList, newHeader "X-Test".toList "v".toList)] }
        ["X-Test".toList]
      = Result.ok "HTTP/1.1 200 OK\r\nX-Test: v\r\n\r\nok\r\n\r\n".toList ∧
    Response.serialize { Status := 200, Body := "ok".toList, Headers := [] } []
      = Result.ok "HTTP/1.1 200 OK\r\nok\r\n\r\n".toList := by
  refine ⟨?_, by decide, by decide⟩
  obtain ⟨hperm, hnd⟩ := hiter
  refine ⟨iter.filterMap (mapGet res.Headers), ?_, ?_⟩
  · rw [← keys_filterMap_mapGet res.Headers hnd]
    exact hperm.filterMap _
  · have hall : ∀ k ∈ iter, ∃ v, mapGet res.Headers k = some v :=
      fun k hk => mapGet_of_mem_keys _ _ (hperm.subset hk)
    have hh := serializeHeaders_eq res.Headers iter [] hall
    unfold Response.serialize
    simp only [hst, hh]
    by_cases hH : res.Headers = []
    · by_cases hB : res.Body = []
      · simp [hH, hB]
      · simp [hH, hB]
    · by_cases hB : res.Body = []
      · simp [hH, hB]
      · simp [hH, hB]

/-- C6, concrete case: status 404 with two headers visited in the reverse of
their insertion order and an empty body. -/
theorem serialize_layout_witness :
    ∃ hs : List Header,
      hs.Perm [newHeader "A".toList "1".toList, newHeader "B".toList "2".toList] ∧
      Response.serialize
          { Status := 404, Body := [],
            Headers := [("A".toList, newHeader "A".toList "1".toList),
                        ("B".toList, newHeader "B".toList "2".toList)] }
          ["B".toList, "A".toList]
        = Result.ok
          ("HTTP/1.1 ".toList ++ fmtInt 404 ++ " ".toList ++ "Not Found".toList ++
            "\r\n".toList ++ ((hs.map Header.toString).flatten ++ "\r\n".toList) ++ [] ++
            "\r\n".toList) :=
  (serialize_layout
    { Status := 404, Body := [],
      Headers := [("A".toList, newHeader "A".toList "1".toList),
                  ("B".toList, newHeader "B".toList "2".toList)] }
    ["B".toList, "A".toList] "Not Found".toList (by decide)
    ⟨List.Perm.swap _ _ _, by decide⟩).1

/-- C7: `serialize` returns an error exactly when the status has no entry in the
table of `statusCodeToMsg`, and then it returns no buffer and no reason phrase is
put in its place; status 999 fails, and the status 200 of a new response has the
reason `OK` and is serialized. -/
theorem serialize_fails_iff_unknown_status (res : Response) (iter : List GoString) :
    ((∃ e, res.serialize iter = Result.err e) ↔ statusCodeToMsg res.Status = none) ∧
    (∀ buf, res.serialize iter = Result.ok buf →
        ∃ reason, statusCodeToMsg res.Status = some reason ∧
          List.IsPrefix ("HTTP/1.1 ".toList ++ fmtInt res.Status ++ " ".toList ++ reason ++
            "\r\n".toList) buf) ∧
    statusCodeToMsg 999 = none ∧
    (Response.SetStatus res 999).serialize iter = Result.err "Not supported code".toList ∧
    newResponse.Status = 200 ∧ statusCodeToMsg 200 = some "OK".toList ∧
    newResponse.serialize ["Content-Type".toList] =
      Result.ok "HTTP/1.1 200 OK\r\nContent-Type: text/plain\r\n\r\n\r\n".toList := by
  refine ⟨?_, ?_, by decide, ?_, rfl, by decide, by decide⟩
  · constructor
    · rintro ⟨e, he⟩
      cases hst : statusCodeToMsg res.Status with
      | none => rfl
      | some reason => exact absurd he (serialize_ne_err res iter reason hst e)
    · intro h
      exact ⟨_, serialize_of_status_none res iter h⟩
  · intro buf hbuf
    cases hst : statusCodeToMsg res.Status with
    | none =>
      rw [serialize_of_status_none res iter hst] at hbuf
      exact Result.noConfusion hbuf
    | some reason =>
      refine ⟨reason, rfl, ?_⟩
      unfold Response.serialize at hbuf
      simp only [hst] at hbuf
      split at hbuf
      · exact Result.noConfusion hbuf
      · rename_i b hb
        have hbuf2 := Result.ok.inj hbuf
        rw [← hbuf2]
        split at hb
        · split at hb
          · exact Option.noConfusion hb
          · rename_i s _
            have := Option.some.inj hb
            rw [← this]
            split
            · exact ⟨s ++ "\r\n".toList ++ res.Body ++ "\r\n".toList ++ "\r\n".toList, by simp⟩
            · exact ⟨s ++ "\r\n".toList ++ "\r\n".toList, by simp⟩
        · have := Option.some.inj hb
          rw [← this]
          split
          · exact ⟨res.Body ++ "\r\n".toList ++ "\r\n".toList, by simp⟩
          · exact ⟨"\r\n".toList, by simp⟩
  · exact serialize_of_status_none _ iter (show statusCodeToMsg 999 = none by decide)

/-- C8: when the request carries an `Accept-Encoding` value accepted by
`isEncodingSupported` (such as `br, gzip`) and the gzip encoder returns the bytes
`c` for the response body, `compressContent` returns no error and leaves the
response with body `c`, header `Content-Encoding: gzip` and header
`Content-Length` equal to the decimal length of `c`. -/
theorem compressContent_gzip (encodeBody : Encoder) (req : Request) (res : Response)
    (encoding c : GoString)
    (hhdr : mapGet req.Headers "Accept-Encoding".toList = some encoding)
    (hsup : isEncodingSupported encoding = true)
    (henc : encodeBody res.Body = Except.ok c) :
    (∃ res' : Response,
      compressContent encodeBody req res = (Result.ok (), res') ∧
      res'.Body = c ∧ res'.Status = res.Status ∧
      mapGet res'.Headers "Content-Encoding".toList =
        some (newHeader "Content-Encoding".toList "gzip".toList) ∧
      mapGet res'.Headers "Content-Length".toList =
        some (newHeader "Content-Length".toList (Nat.toDigits 10 c.length))) ∧
    isEncodingSupported "br, gzip".toList = true ∧
    selectUsedEncoding "br, gzip".toList = "gzip".toList := by
  refine ⟨?_, by decide, by decide⟩
  have hsel := selectUsedEncoding_of_supported encoding hsup
  have hbody : compressContentBody encodeBody req res =
      (Result.ok (), (Response.calcContentLength { res with Body := c }).setHeader
        "Content-Encoding".toList "gzip".toList) := by
    unfold compressContentBody
    simp only [hhdr, hsup, hsel, getEncodingFunction, henc, Bool.not_true,
      Bool.false_eq_true, if_false, if_true]
  refine ⟨((Response.calcContentLength { res with Body := c }).setHeader
      "Content-Encoding".toList "gzip".toList).calcContentLength,
    by unfold compressContent; rw [hbody], rfl, rfl, ?_, ?_⟩
  · obtain ⟨_, _, _, hother⟩ := calcContentLength_headers
      ((Response.calcContentLength { res with Body := c }).setHeader
        "Content-Encoding".toList "gzip".toList)
    rw [hother _ (by decide)]
    simp only [Response.setHeader]
    exact mapGet_mapSet_self _ _ _
  · exact (calcContentLength_headers _).2.2.1

/-- C8, concrete case: header `Accept-Encoding: br, gzip`, body `hello`, and an
encoder that returns three bytes. -/
theorem compressContent_gzip_witness :
    ∃ res' : Response,
      compressContent (fun _ => Except.ok "xyz".toList)
        { requestOf HttpVerb.GET "/".toList with
          Headers := [("Accept-Encoding".toList, "br, gzip".toList)] }
        { newResponse with Body := "hello".toList } = (Result.ok (), res') ∧
      res'.Body = "xyz".toList ∧ res'.Status = 200 ∧
      mapGet res'.Headers "Content-Encoding".toList =
        some (newHeader "Content-Encoding".toList "gzip".toList) ∧
      mapGet res'.Headers "Content-Length".toList =
        some (newHeader "Content-Length".toList "3".toList) :=
  (compressContent_gzip (fun _ => Except.ok "xyz".toList)
    { requestOf HttpVerb.GET "/".toList with
      Headers := [("Accept-Encoding".toList, "br, gzip".toList)] }
    { newResponse with Body := "hello".toList } "br, gzip".toList "xyz".toList
    (by decide) (by decide) rfl).1

/-- C9: when the request has no `Accept-Encoding` header, or its value is not
accepted by `isEncodingSupported`, or no comma-separated token of its value is
`gzip` after trimming white space, `compressContent` returns no error, leaves the
body, the status and every header other than `Content-Length` as they were (so no
`Content-Encoding` is added), and sets `Content-Length` to the decimal length of
the body. -/
theorem compressContent_passthrough (encodeBody : Encoder) (req : Request)
    (res : Response)
    (h : mapGet req.Headers "Accept-Encoding".toList = none ∨
      ∃ encoding, mapGet req.Headers "Accept-Encoding".toList = some encoding ∧
        (isEncodingSupported encoding = false ∨
          ∀ t ∈ Split encoding [','], TrimSpace t ≠ "gzip".toList)) :
    ∃ res' : Response,
      compressContent encodeBody req res = (Result.ok (), res') ∧
      res'.Body = res.Body ∧ res'.Status = res.Status ∧
      (∀ k, k ≠ "Content-Length".toList → mapGet res'.Headers k = mapGet res.Headers k) ∧
      mapGet res'.Headers "Content-Encoding".toList =
        mapGet res.Headers "Content-Encoding".toList ∧
      mapGet res'.Headers "Content-Length".toList =
        some (newHeader "Content-Length".toList (Nat.toDigits 10 res.Body.length)) := by
  have h' : mapGet req.Headers "Accept-Encoding".toList = none ∨
      ∃ encoding, mapGet req.Headers "Accept-Encoding".toList = some encoding ∧
        isEncodingSupported encoding = false := by
    rcases h with h | ⟨encoding, h1, h2⟩
    · exact Or.inl h
    · refine Or.inr ⟨encoding, h1, ?_⟩
      rcases h2 with h2 | h2
      · exact h2
      · cases hs : isEncodingSupported encoding with
        | false => rfl
        | true =>
          obtain ⟨t, ht, htg⟩ := gzip_token_of_supported encoding hs
          exact absurd htg (h2 t ht)
  obtain ⟨hb, hs, hcl, hother⟩ := calcContentLength_headers res
  exact ⟨res.calcContentLength, compressContent_not_supported encodeBody req res h',
    hb, hs, hother, hother _ (by decide), hcl⟩

/-- C9, concrete case: a request without headers and the body `hello`. -/
theorem compressContent_passthrough_witness :
    ∃ res' : Response,
      compressContent (fun _ => Except.ok "xyz".toList) (requestOf HttpVerb.GET "/".toList)
        { newResponse with Body := "hello".toList } = (Result.ok (), res') ∧
      res'.Body = "hello".toList ∧ res'.Status = 200 ∧
      mapGet res'.Headers "Content-Type".toList =
        some (newHeader "Content-Type".toList "text/plain".toList) ∧
      mapGet res'.Headers "Content-Encoding".toList = none ∧
      mapGet res'.Headers "Content-Length".toList =
        some (newHeader "Content-Length".toList "5".toList) := by
  obtain ⟨res', h1, h2, h3, h4, h5, h6⟩ :=
    compressContent_passthrough (fun _ => Except.ok "xyz".toList)
      (requestOf HttpVerb.GET "/".toList) { newResponse with Body := "hello".toList }
      (Or.inl rfl)
  exact ⟨res', h1, h2, h3, (h4 _ (by decide)).trans (by decide), h5.trans (by decide), h6⟩

/-- C10, at the failing input: the value `br,gzip` has the comma-separated token
`gzip`, and `selectUsedEncoding` finds it, but `isEncodingSupported`, which cuts
only after a comma followed by a space, answers false; `gzip , br` is refused as
well, while `gzip`, `br, gzip` are accepted and `br, deflate` is refused. -/
theorem isEncodingSupported_misses_gzip_token :
    isEncodingSupported "br,gzip".toList = false ∧
    (∃ t ∈ Split "br,gzip".toList [','], TrimSpace t = "gzip".toList) ∧
    selectUsedEncoding "br,gzip".toList = "gzip".toList ∧
    isEncodingSupported "gzip , br".toList = false ∧
    (∃ t ∈ Split "gzip , br".toList [','], TrimSpace t = "gzip".toList) ∧
    isEncodingSupported "gzip".toList = true ∧
    isEncodingSupported "br, gzip".toList = true ∧
    isEncodingSupported "br, deflate".toList = false := by
  refine ⟨by decide, ⟨"gzip".toList, by decide, by decide⟩, by decide, by decide,
    ⟨"gzip ".toList, by decide, by decide⟩, by decide, by decide, by decide⟩

/-- C17: `getSlugType(s)` is WILDCART exactly when `s` starts with `[` and ends
with `]`, and LITERAL otherwise, the empty segment included;
`getSlugName(s, getSlugType(s))` never slices out of range, it is `s` without its
first and last byte for a WILDCART and `s` itself for a LITERAL. -/
theorem getSlugType_getSlugName_spec (s : GoString) :
    (getSlugType s = SlugType.WILDCART ↔ (['['] <+: s ∧ [']'] <:+ s)) ∧
    (getSlugType s = SlugType.LITERAL ↔ ¬ (['['] <+: s ∧ [']'] <:+ s)) ∧
    getSlugType [] = SlugType.LITERAL ∧
    (∃ n, getSlugName s (getSlugType s) = some n) ∧
    (getSlugType s = SlugType.WILDCART →
      ∃ mid, s = ['['] ++ mid ++ [']'] ∧ getSlugName s (getSlugType s) = some mid) ∧
    (getSlugType s = SlugType.LITERAL → getSlugName s (getSlugType s) = some s) := by
  have hiff : getSlugType s = SlugType.WILDCART ↔ (['['] <+: s ∧ [']'] <:+ s) := by
    rw [getSlugType_wildcart_iff]
    constructor
    · rintro ⟨mid, rfl⟩
      exact ⟨⟨mid ++ [']'], rfl⟩, ⟨'[' :: mid, rfl⟩⟩
    · rintro ⟨⟨t, ht⟩, ⟨u, hu⟩⟩
      cases u with
      | nil =>
        rw [← ht] at hu
        simp only [List.nil_append, List.singleton_append, List.cons.injEq] at hu
        exact absurd hu.1 (by decide)
      | cons a u =>
        rw [← ht] at hu
        have h1 : a = '[' ∧ u ++ [']'] = t := by simpa using hu
        exact ⟨u, by rw [← ht, ← h1.2]; rfl⟩
  refine ⟨hiff, ?_, rfl, getSlugName_isSome s, ?_, ?_⟩
  · rw [← hiff]
    cases getSlugType s <;> simp
  · intro h
    obtain ⟨mid, hmid⟩ := (getSlugType_wildcart_iff s).mp h
    refine ⟨mid, by rw [hmid]; rfl, ?_⟩
    rw [h, hmid]
    exact getSlugName_wildcart mid
  · intro h
    rw [h]
    rfl

/-- C18: in every router built from `NewRouter` by `Suscribe` calls, every stored
route has as many slugs as its pattern has segments, every WILDCART slug has a
non-empty name, and two stored routes with the same verb and the same pattern
string are the same entry of the table. -/
theorem route_table_invariant (r : Router) (hr : Reachable r) :
    (∀ k route, route ∈ r.paths k →
        route.slugs.length = (Split route.path ['/']).length) ∧
    (∀ k route, route ∈ r.paths k →
        ∀ slg ∈ route.slugs, slg.sType = SlugType.WILDCART → slg.name ≠ []) ∧
    (∀ (k1 i1 k2 i2 : Nat) (a b : Route),
        (r.paths k1)[i1]? = some a → (r.paths k2)[i2]? = some b →
        a.method = b.method → a.path = b.path → k1 = k2 ∧ i1 = i2) := by
  refine ⟨?_, ?_, ?_⟩
  · intro k route hmem
    obtain ⟨hs, _⟩ := hr.route_built k route hmem
    obtain ⟨hv, _⟩ := newRouteSlugs_values _ _ hs
    have := congrArg List.length hv
    simpa using this
  · intro k route hmem slg hslg hw
    obtain ⟨hs, hnb⟩ := hr.route_built k route hmem
    obtain ⟨h1, h2, h3⟩ := newRouteSlugs_names _ _ hs slg hslg
    rw [hw] at h2 h3
    exact wildcart_name_ne_nil slg.value slg.name h2.symm
      (fun h => hnb (h ▸ h1)) h3
  · intro k1 i1 k2 i2 a b ha hb hm hp
    have hak := hr.bucket_of_route k1 a (List.getElem?_mem ha)
    have hbk := hr.bucket_of_route k2 b (List.getElem?_mem hb)
    have hk : k1 = k2 := by rw [← hak, ← hbk, hp]
    subst hk
    exact ⟨rfl, same_bucket_index (hr.bucket_pairwise k1) i1 i2 a b ha hb hm hp⟩

/-- C18, concrete case: after `GET /users/[id]` and `POST /users/[id]` on the new
router, the first route of bucket 3 has as many slugs as `/users/[id]` has
segments, and its wildcard slug has the non-empty name `id`. -/
theorem route_table_invariant_witness :
    Reachable (((NewRouter.Suscribe HttpVerb.GET "/users/[id]".toList defaultNotFound).2).Suscribe
      HttpVerb.POST "/users/[id]".toList defaultNotFound).2 ∧
    [({ sType := SlugType.LITERAL, value := [], name := [] } : Slug),
      { sType := SlugType.LITERAL, value := "users".toList, name := "users".toList },
      { sType := SlugType.WILDCART, value := "[id]".toList, name := "id".toList }].length
      = (Split "/users/[id]".toList ['/']).length ∧
    ({ sType := SlugType.WILDCART, value := "[id]".toList, name := "id".toList } : Slug).name
      ≠ [] :=
  ⟨Reachable.suscribe _ HttpVerb.POST "/users/[id]".toList defaultNotFound
      (Reachable.suscribe _ HttpVerb.GET "/users/[id]".toList defaultNotFound Reachable.new),
   (route_table_invariant _
      (Reachable.suscribe _ HttpVerb.POST "/users/[id]".toList defaultNotFound
        (Reachable.suscribe _ HttpVerb.GET "/users/[id]".toList defaultNotFound
          Reachable.new))).1 3
      { method := HttpVerb.GET, path := "/users/[id]".toList,
        slugs := [{ sType := SlugType.LITERAL, value := [], name := [] },
                  { sType := SlugType.LITERAL, value := "users".toList,
                    name := "users".toList },
                  { sType := SlugType.WILDCART, value := "[id]".toList,
                    name := "id".toList }],
        handler := defaultNotFound } (List.Mem.head _),
   (route_table_invariant _
      (Reachable.suscribe _ HttpVerb.POST "/users/[id]".toList defaultNotFound
        (Reachable.suscribe _ HttpVerb.GET "/users/[id]".toList defaultNotFound
          Reachable.new))).2.1 3
      { method := HttpVerb.GET, path := "/users/[id]".toList,
        slugs := [{ sType := SlugType.LITERAL, value := [], name := [] },
                  { sType := SlugType.LITERAL, value := "users".toList,
                    name := "users".toList },
                  { sType := SlugType.WILDCART, value := "[id]".toList,
                    name := "id".toList }],
        handler := defaultNotFound } (List.Mem.head _)
      { sType := SlugType.WILDCART, value := "[id]".toList, name := "id".toList }
      (List.Mem.tail _ (List.Mem.tail _ (List.Mem.head _))) rfl⟩

/-- C19: when `findHandler` returns a route, `parseSlugs` on that request and
route returns no error, so `handleRequest` runs the handler of that route (on the
request with the bound slugs) and never the `malformed` handler. -/
theorem matched_request_reaches_handler (r : Router) (req : Request) (route : Route)
    (h : r.findHandler req = some route) :
    ∃ req', req.parseSlugs route = (none, req') ∧
      ∀ res, r.handleRequest req res = route.handler req' res := by
  have hlen : route.slugs.length = (Split req.path ['/']).length :=
    findHandlerBros_length _ _ _ _ h
  have hps : req.parseSlugs route =
      (none, { req with Slugs := (parseSlugsLoop route.slugs (Split req.path ['/'])
        (List.range route.slugs.length) req.Slugs) }) := by
    unfold Request.parseSlugs
    rw [if_neg (by simpa using hlen)]
  refine ⟨_, hps, ?_⟩
  intro res
  unfold Router.handleRequest
  rw [h]
  simp only [hps]

/-- C19, concrete case: with `GET /users/[id]` subscribed to a handler that sets
status 201, the request `GET /users/42` binds `id` and ends with status 201. -/
theorem matched_request_reaches_handler_witness :
    ∃ req',
      (requestOf HttpVerb.GET "/users/42".toList).parseSlugs
        { method := HttpVerb.GET, path := "/users/[id]".toList,
          slugs := [{ sType := SlugType.LITERAL, value := [], name := [] },
                    { sType := SlugType.LITERAL, value := "users".toList,
                      name := "users".toList },
                    { sType := SlugType.WILDCART, value := "[id]".toList,
                      name := "id".toList }],
          handler := fun req res => (req, res.SetStatus 201) } = (none, req') ∧
      mapGet req'.Slugs "id".toList = some "42".toList ∧
      ((NewRouter.Suscribe HttpVerb.GET "/users/[id]".toList
          (fun req res => (req, res.SetStatus 201))).2.handleRequest
        (requestOf HttpVerb.GET "/users/42".toList) newResponse).2.Status = 201 := by
  obtain ⟨req', h1, h2⟩ := matched_request_reaches_handler
    (NewRouter.Suscribe HttpVerb.GET "/users/[id]".toList
      (fun req res => (req, res.SetStatus 201))).2
    (requestOf HttpVerb.GET "/users/42".toList)
    { method := HttpVerb.GET, path := "/users/[id]".toList,
      slugs := [{ sType := SlugType.LITERAL, value := [], name := [] },
                { sType := SlugType.LITERAL, value := "users".toList,
                  name := "users".toList },
                { sType := SlugType.WILDCART, value := "[id]".toList,
                  name := "id".toList }],
      handler := fun req res => (req, res.SetStatus 201) } rfl
  refine ⟨req', h1, ?_, by rw [h2 newResponse]; rfl⟩
  have h3 : (requestOf HttpVerb.GET "/users/42".toList).parseSlugs
      { method := HttpVerb.GET, path := "/users/[id]".toList,
        slugs := [{ sType := SlugType.LITERAL, value := [], name := [] },
                  { sType := SlugType.LITERAL, value := "users".toList,
                    name := "users".toList },
                  { sType := SlugType.WILDCART, value := "[id]".toList,
                    name := "id".toList }],
        handler := fun req res => (req, res.SetStatus 201) } =
      (none, { requestOf HttpVerb.GET "/users/42".toList with
        Slugs := [("id".toList, "42".toList)] }) := rfl
  rw [h3] at h1
  rw [← (Prod.mk.inj h1).2]
  rfl

/-- C20: an `Accept-Encoding` value accepted by `isEncodingSupported` makes
`selectUsedEncoding` return `gzip`, so `getEncodingFunction` gives the gzip
encoder and not nil; `compressContent` never panics, and the `Content-Encoding`
header it leaves is the one it found or `gzip`; the two functions cut `br,gzip`
differently. -/
theorem supported_selects_gzip :
    (∀ h : GoString, isEncodingSupported h = true →
        selectUsedEncoding h = "gzip".toList) ∧
    (∀ (encodeBody : Encoder) (h : GoString), isEncodingSupported h = true →
        getEncodingFunction encodeBody (selectUsedEncoding h) = some encodeBody) ∧
    (∀ (encodeBody : Encoder) (req : Request) (res : Response) (msg : GoString),
        (compressContent encodeBody req res).1 ≠ Result.panic msg) ∧
    (∀ (encodeBody : Encoder) (req : Request) (res : Response),
        mapGet (compressContent encodeBody req res).2.Headers "Content-Encoding".toList =
            mapGet res.Headers "Content-Encoding".toList ∨
        mapGet (compressContent encodeBody req res).2.Headers "Content-Encoding".toList =
            some (newHeader "Content-Encoding".toList "gzip".toList)) ∧
    SplitAfter "br,gzip".toList ", ".toList = ["br,gzip".toList] ∧
    SplitAfter "br,gzip".toList [','] = ["br,".toList, "gzip".toList] := by
  refine ⟨selectUsedEncoding_of_supported, ?_, ?_, ?_, by decide, by decide⟩
  · intro encodeBody h hs
    rw [selectUsedEncoding_of_supported h hs]
    rfl
  · intro encodeBody req res msg
    unfold compressContent
    rcases compressContentBody_cases encodeBody req res with h | ⟨e, h⟩ | ⟨c, h⟩ <;>
      simp [h]
  · intro encodeBody req res
    unfold compressContent
    rcases compressContentBody_cases encodeBody req res with h | ⟨e, h⟩ | ⟨c, h⟩
    · left
      rw [h]
      exact (calcContentLength_headers res).2.2.2 _ (by decide)
    · left
      rw [h]
      exact (calcContentLength_headers res).2.2.2 _ (by decide)
    · right
      rw [h]
      simp only
      rw [(calcContentLength_headers _).2.2.2 _ (by decide)]
      simp only [Response.setHeader]
      exact mapGet_mapSet_self _ _ _

/-- C12: `parseReqLine` succeeds exactly when the split of the line on the space
byte has three tokens, that is when the line has exactly two spaces; it then
returns the three tokens in their order, which joined by single spaces give back
the line; with any other token count it returns the malformed request error. -/
theorem parseReqLine_three_tokens (reqLine : GoString) :
    ((∃ parts, parseReqLine reqLine = Except.ok parts) ↔
        (Split reqLine [' ']).length = 3) ∧
    ((Split reqLine [' ']).length = 3 ↔ reqLine.count ' ' = 2) ∧
    (∀ parts, parseReqLine reqLine = Except.ok parts →
        ∃ method path version, parts = [method, path, version] ∧
          Split reqLine [' '] = [method, path, version] ∧
          method ++ " ".toList ++ path ++ " ".toList ++ version = reqLine) ∧
    ((Split reqLine [' ']).length ≠ 3 →
        parseReqLine reqLine = Except.error "Malformed request from \n".toList) ∧
    parseReqLine "GET /users/42 HTTP/1.1".toList =
      Except.ok ["GET".toList, "/users/42".toList, "HTTP/1.1".toList] := by
  have hcount : (Split reqLine [' ']).length = reqLine.count ' ' + 1 :=
    genSplitLoop_char_length ' ' reqLine.length reqLine (le_refl _)
  refine ⟨?_, by omega, ?_, ?_, rfl⟩
  · constructor
    · rintro ⟨parts, h⟩
      unfold parseReqLine at h
      by_contra hne
      simp only [hne, ne_eq, not_false_eq_true, if_true] at h
      exact Except.noConfusion h
    · intro h3
      unfold parseReqLine
      simp only [h3, ne_eq, not_true_eq_false, if_false]
      exact ⟨_, rfl⟩
  · intro parts h
    unfold parseReqLine at h
    by_cases h3 : (Split reqLine [' ']).length = 3
    · simp only [h3, ne_eq, not_true_eq_false, if_false] at h
      have hparts := Except.ok.inj h
      match hsp : Split reqLine [' '], h3 with
      | [m, p, v], _ =>
        rw [hsp] at hparts
        refine ⟨m, p, v, hparts.symm, rfl, ?_⟩
        have := genSplitLoop_char_three ' ' reqLine m p v hsp
        rw [this]
        simp
    · simp only [h3, ne_eq, not_false_eq_true, if_true] at h
      exact Except.noConfusion h
  · intro hne
    unfold parseReqLine
    simp only [hne, ne_eq, not_false_eq_true, if_true]

/-- C15, on the code: the buffer `GET / HTTP/1.1\r\nX-Empty:\r\n\r\nbody` has a
valid request line, the divider `\r\n\r\n`, and one header line, which contains a
`:`; its fragments are the request line, `X-Empty:`, the empty fragment and
`body`.  The header loop splits `X-Empty:` into `X-Empty` and the empty text, and
the slice `hParts[1][1:]` of the empty text panics: no request reaches the router
and no body `body` is produced.  Hence the claim, with a well-formed header line
read as a line that contains `:`, does not hold on the code. -/
theorem body_lost_on_empty_header_value :
    Split "GET / HTTP/1.1\r\nX-Empty:\r\n\r\nbody".toList "\r\n".toList =
      ["GET / HTTP/1.1".toList, "X-Empty:".toList, [], "body".toList] ∧
    Split "GET / HTTP/1.1".toList [' '] = ["GET".toList, "/".toList, "HTTP/1.1".toList] ∧
    httpVerbfromString "GET".toList = some HttpVerb.GET ∧
    "\r\n\r\n".toList <:+: "GET / HTTP/1.1\r\nX-Empty:\r\n\r\nbody".toList ∧
    ':' ∈ "X-Empty:".toList ∧
    Split "X-Empty:".toList [':'] = ["X-Empty".toList, []] ∧
    parseHeaderLine "X-Empty:".toList = none ∧
    handleConnectionParse [] "GET / HTTP/1.1\r\nX-Empty:\r\n\r\nbody".toList =
      ParseOutcome.panicked "index out of range".toList ∧
    ¬ (∀ (context : GoMap GoString) (buffer m p : GoString) (verb : HttpVerb) (k : Nat),
        Split ((Split buffer "\r\n".toList).getD 0 []) [' '] = [m, p, "HTTP/1.1".toList] →
        httpVerbfromString m = some verb →
        "\r\n\r\n".toList <:+: buffer →
        (Split buffer "\r\n".toList)[k]? = some [] →
        (∀ j, j < k → (Split buffer "\r\n".toList)[j]? ≠ some []) →
        (∀ j line, 1 ≤ j → j < k → (Split buffer "\r\n".toList)[j]? = some line →
          ':' ∈ line) →
        ∃ req, handleConnectionParse context buffer = ParseOutcome.parsed req ∧
          req.Body = ((Split buffer "\r\n".toList).drop (k + 1)).flatten) := by
  have hdiv : "\r\n\r\n".toList <:+: "GET / HTTP/1.1\r\nX-Empty:\r\n\r\nbody".toList :=
    ⟨"GET / HTTP/1.1\r\nX-Empty:".toList, "body".toList, by decide⟩
  refine ⟨by decide, by decide, by decide, hdiv, by decide, by decide, by decide, rfl, ?_⟩
  intro hall
  obtain ⟨req, hreq, _⟩ := hall [] "GET / HTTP/1.1\r\nX-Empty:\r\n\r\nbody".toList
    "GET".toList "/".toList HttpVerb.GET 2 (by decide) (by decide) hdiv (by decide)
    (by
      intro j hj
      have : j = 0 ∨ j = 1 := by omega
      rcases this with h | h <;> subst h <;> decide)
    (by
      intro j line hj1 hjk hget
      have hj : j = 1 := by omega
      subst hj
      have hl : line = "X-Empty:".toList := by
        have : (some "X-Empty:".toList : Option GoString) = some line := hget
        exact (Option.some.inj this).symm
      subst hl
      decide)
  have hp : handleConnectionParse [] "GET / HTTP/1.1\r\nX-Empty:\r\n\r\nbody".toList =
      ParseOutcome.panicked "index out of range".toList := rfl
  rw [hp] at hreq
  exact ParseOutcome.noConfusion hreq

/-- C16, on the code: `MAX_REQUEST_SIZE`, written `5.12 * 10e5`, is 5,120,000 and
not the 512,000 of its comment (`10e5` is 1,000,000). -/
theorem MAX_REQUEST_SIZE_value :
    MAX_REQUEST_SIZE = 5120000 ∧ MAX_REQUEST_SIZE ≠ 512000 ∧ (10e5 : ℚ) = 1000000 := by
  unfold MAX_REQUEST_SIZE
  refine ⟨by norm_num, by norm_num, by norm_num⟩

/-- C11 as stated fails: the value `, br` has the tokens `""` and `br`, no
`gzip`, and `selectUsedEncoding` returns `br`, not the first token; the value
`gzip , br` has the token `gzip` and `selectUsedEncoding` returns `gzip `, with
the space. -/
theorem selectUsedEncoding_first_token_counterexample :
    (Split ", br".toList [',']).map TrimSpace = [[], "br".toList] ∧
    selectUsedEncoding ", br".toList = "br".toList ∧
    "gzip".toList ∈ (Split "gzip , br".toList [',']).map TrimSpace ∧
    selectUsedEncoding "gzip , br".toList = "gzip ".toList ∧
    ¬ (∀ h : GoString,
        ("gzip".toList ∈ (Split h [',']).map TrimSpace →
          selectUsedEncoding h = "gzip".toList) ∧
        ("gzip".toList ∉ (Split h [',']).map TrimSpace →
          ((Split h [',']).map TrimSpace).head? = some (selectUsedEncoding h))) := by
  refine ⟨by decide, by decide, by decide, by decide, ?_⟩
  intro hall
  have h1 := (hall ", br".toList).2 (by decide)
  revert h1
  decide

/-- C11, amended: for a header value in which no white space stands between a
token and the comma after it, with the tokens taken as the comma-separated pieces
trimmed of surrounding white space: when some token is `gzip`,
`selectUsedEncoding` returns `gzip`; otherwise it returns the first non-empty
token, and the empty string when every token is empty. -/
theorem selectUsedEncoding_by_tokens (h : GoString)
    (hpad : ∀ t ∈ (Split h [',']).dropLast, TrimSpace t = trimLeftSpace t) :
    ("gzip".toList ∈ (Split h [',']).map TrimSpace →
        selectUsedEncoding h = "gzip".toList) ∧
    ("gzip".toList ∉ (Split h [',']).map TrimSpace →
        selectUsedEncoding h =
          (((Split h [',']).map TrimSpace).find? (fun t => decide (t ≠ []))).getD []) := by
  have hmain : selectUsedEncoding h = selectByTokens ((Split h [',']).map TrimSpace) [] :=
    selectUsedEncodingLoop_tokens h.length h [] (le_refl _) hpad
  constructor
  · intro hg
    rw [hmain]
    unfold selectByTokens
    rw [if_pos hg]
  · intro hg
    rw [hmain]
    unfold selectByTokens
    rw [if_neg hg]
    simp

/-- C11, concrete cases: `br, gzip` selects `gzip`, and `, deflate, br` selects
`deflate`. -/
theorem selectUsedEncoding_by_tokens_witness :
    selectUsedEncoding "br, gzip".toList = "gzip".toList ∧
    selectUsedEncoding ", deflate, br".toList = "deflate".toList :=
  ⟨(selectUsedEncoding_by_tokens "br, gzip".toList (by decide)).1 (by decide),
   ((selectUsedEncoding_by_tokens ", deflate, br".toList (by decide)).2 (by decide)).trans
     (by decide)⟩

/-- C13, on the code: the line `Host: localhost:8080` is recorded with the value
`localhost`, the text between the first and the second `:` without its first
byte, and not `localhost:8080`; a buffer with that line gives a request with
`Headers["Host"] = "localhost"`; of two lines with the same name the later value
is kept. -/
theorem header_value_cut_at_second_colon :
    parseHeaderLine "Host: localhost:8080".toList =
      some ("Host".toList, "localhost".toList) ∧
    (∃ req, handleConnectionParse []
        "GET / HTTP/1.1\r\nHost: localhost:8080\r\n\r\n".toList = ParseOutcome.parsed req ∧
      mapGet req.Headers "Host".toList = some "localhost".toList) ∧
    (∃ req, handleConnectionParse []
        "GET / HTTP/1.1\r\nA: 1\r\nA: 2\r\n\r\n".toList = ParseOutcome.parsed req ∧
      mapGet req.Headers "A".toList = some "2".toList) := by
  refine ⟨by decide, ⟨_, rfl, by decide⟩, ⟨_, rfl, by decide⟩⟩

/-- C14, on the code: a header line without `:` makes the index `hParts[1]` panic,
while a request line with a wrong token count makes `handleConnection` return. -/
theorem header_without_colon_panics :
    parseHeaderLine "BadHeader".toList = none ∧
    handleConnectionParse [] "GET / HTTP/1.1\r\nBadHeader\r\n\r\n".toList =
      ParseOutcome.panicked "index out of range".toList ∧
    handleConnectionParse [] "GET /\r\n\r\n".toList =
      ParseOutcome.aborted "Malformed request from \n".toList := by
  refine ⟨by decide, rfl, rfl⟩

/-- Body after the divider, on the lines the header loop can read: for a buffer
that contains the divider `\r\n\r\n`, whose first fragment is a request line
`method path HTTP/1.1` with a known verb, and whose fragments between the request
line and the first empty fragment (index `k`) satisfy `HeaderLineOk`, the request
handed to the router has as body the concatenation, in order and without
separator, of the fragments after the first empty fragment; the body is empty
when a single empty fragment follows the divider. -/
theorem body_after_divider (context : GoMap GoString) (buffer m p : GoString)
    (verb : HttpVerb) (k : Nat)
    (hline : Split ((Split buffer "\r\n".toList).getD 0 []) [' '] =
      [m, p, "HTTP/1.1".toList])
    (hverb : httpVerbfromString m = some verb)
    (hdiv : "\r\n\r\n".toList <:+: buffer)
    (hk : (Split buffer "\r\n".toList)[k]? = some [])
    (hfirst : ∀ j, j < k → (Split buffer "\r\n".toList)[j]? ≠ some [])
    (hwf : ∀ j line, 1 ≤ j → j < k → (Split buffer "\r\n".toList)[j]? = some line →
      HeaderLineOk line) :
    ∃ req, handleConnectionParse context buffer = ParseOutcome.parsed req ∧
      req.Body = ((Split buffer "\r\n".toList).drop (k + 1)).flatten ∧
      req.method = verb ∧ req.path = p ∧
      ((Split buffer "\r\n".toList).drop (k + 1) = [[]] → req.Body = []) := by
  obtain ⟨a, b, hab⟩ := hdiv
  have hbuf : buffer = a ++ ['\r', '\n'] ++ ['\r', '\n'] ++ b := by
    rw [← hab]
    simp
  -- an empty fragment that is not the last one
  obtain ⟨e, he1, he2⟩ := genSplitLoop_double_sep '\r' '\n' (by decide) buffer.length
    buffer a b (le_refl _) hbuf
  have hfrag : genSplitLoop ['\r', '\n'] 0 buffer.length buffer =
      Split buffer "\r\n".toList := rfl
  rw [hfrag] at he1 he2
  have hke : k ≤ e := by
    by_contra hc
    exact hfirst e (by omega) he2
  obtain ⟨hklen, hkv⟩ := List.getElem?_eq_some_iff.mp hk
  have hkD : (Split buffer "\r\n".toList).getD k [] = [] := by
    rw [List.getD_eq_getElem _ _ hklen]
    exact hkv
  have h0 : (Split buffer "\r\n".toList).getD 0 [] ≠ [] := by
    intro h
    rw [h] at hline
    have hnil : Split [] [' '] = [[]] := rfl
    rw [hnil] at hline
    have := congrArg List.length hline
    simp at this
  have hk1 : 1 ≤ k := by
    by_contra hc
    have hk0 : k = 0 := by omega
    rw [hk0] at hkD
    exact h0 hkD
  have hlines : ∀ j, 1 ≤ j → j < k →
      (Split buffer "\r\n".toList).getD j [] ≠ [] ∧
        ∃ nv, parseHeaderLine ((Split buffer "\r\n".toList).getD j []) = some nv := by
    intro j hj1 hjk
    have hjl : j < (Split buffer "\r\n".toList).length := by omega
    have hget : (Split buffer "\r\n".toList)[j]? =
        some ((Split buffer "\r\n".toList).getD j []) := by
      rw [List.getD_eq_getElem _ _ hjl]
      exact List.getElem?_eq_getElem hjl
    refine ⟨?_, parseHeaderLine_ok _ (hwf j _ hj1 hjk hget)⟩
    intro h
    rw [h] at hget
    exact hfirst j hjk hget
  obtain ⟨hs', hloop⟩ := headersLoop_divider (Split buffer "\r\n".toList) k hk1 hkD hlines
    ((Split buffer "\r\n".toList).length - 1) 0 [] (Nat.zero_le _) (by omega)
  rw [← List.range_eq_range'] at hloop
  have hblen : ¬ buffer.length = 0 := by
    have := congrArg List.length hbuf
    simp at this
    omega
  have hplen : ¬ (Split buffer "\r\n".toList).length = 0 := by omega
  have hdrop : ∃ f rest, (Split buffer "\r\n".toList).drop (k + 1) = f :: rest := by
    cases hd : (Split buffer "\r\n".toList).drop (k + 1) with
    | nil =>
      have := congrArg List.length hd
      rw [List.length_drop, List.length_nil] at this
      omega
    | cons f rest => exact ⟨f, rest, rfl⟩
  obtain ⟨f, rest, hfr⟩ := hdrop
  have hgt : ((Split buffer "\r\n".toList).length : Int) > (k : Int) := by omega
  have htoNat : ((k : Int) + 1).toNat = k + 1 := by omega
  have hparse : handleConnectionParse context buffer = ParseOutcome.parsed
      { method := verb, path := p, Slugs := [], searchParams := [], Headers := hs',
        Body := ((Split buffer "\r\n".toList).drop (k + 1)).flatten, Context := context } := by
    unfold handleConnectionParse
    simp only [hblen, hplen, if_false, parseReqLine_of_split _ _ _ _ hline]
    simp only [List.getD_cons_zero, List.getD_cons_succ, ne_eq, not_true_eq_false, if_false,
      hverb, newRequest]
    rw [hloop]
    simp only [hgt, if_true, htoNat, hfr]
  refine ⟨_, hparse, rfl, rfl, rfl, ?_⟩
  intro hnil
  simp only [hnil]
  rfl

/-- Body after the divider, concrete case: two header lines and a body of two
fragments. -/
theorem body_after_divider_witness :
    ∃ req, handleConnectionParse []
        "POST /a HTTP/1.1\r\nHost: x:80\r\nB: c\r\n\r\nhello\r\nworld".toList =
          ParseOutcome.parsed req ∧
      req.Body = "helloworld".toList ∧ req.method = HttpVerb.POST ∧ req.path = "/a".toList := by
  obtain ⟨req, h1, h2, h3, h4, _⟩ := body_after_divider []
    "POST /a HTTP/1.1\r\nHost: x:80\r\nB: c\r\n\r\nhello\r\nworld".toList
    "POST".toList "/a".toList HttpVerb.POST 3
    (by decide) (by decide)
    ⟨"POST /a HTTP/1.1\r\nHost: x:80\r\nB: c".toList, "hello\r\nworld".toList, by decide⟩
    (by decide)
    (by
      intro j hj
      have : j = 0 ∨ j = 1 ∨ j = 2 := by omega
      rcases this with h | h | h <;> subst h <;> decide)
    (by
      intro j line hj1 hjk hget
      have : j = 1 ∨ j = 2 := by omega
      rcases this with h | h
      · subst h
        have hl : line = "Host: x:80".toList := by
          have : (some "Host: x:80".toList : Option GoString) = some line := hget
          exact (Option.some.inj this).symm
        subst hl
        exact ⟨"Host".toList, ' ', "x:80".toList, rfl, by decide, by decide⟩
      · subst h
        have hl : line = "B: c".toList := by
          have : (some "B: c".toList : Option GoString) = some line := hget
          exact (Option.some.inj this).symm
        subst hl
        exact ⟨"B".toList, ' ', "c".toList, rfl, by decide, by decide⟩)
  exact ⟨req, h1, h2.trans (by decide), h3, h4⟩

/-- C21 as stated fails: the buffer `GET / HTTP/1.1\r\nnocolon\r\nx` has a valid
request line and the fragments `GET / HTTP/1.1`, `nocolon`, `x`, none of them
empty, yet no body is produced: the header loop reads `nocolon` as a header line
and panics. -/
theorem body_without_divider_counterexample :
    Split "GET / HTTP/1.1\r\nnocolon\r\nx".toList "\r\n".toList =
      ["GET / HTTP/1.1".toList, "nocolon".toList, "x".toList] ∧
    Split "GET / HTTP/1.1".toList [' '] = ["GET".toList, "/".toList, "HTTP/1.1".toList] ∧
    httpVerbfromString "GET".toList = some HttpVerb.GET ∧
    handleConnectionParse [] "GET / HTTP/1.1\r\nnocolon\r\nx".toList =
      ParseOutcome.panicked "index out of range".toList ∧
    ¬ (∀ (context : GoMap GoString) (buffer m p : GoString) (verb : HttpVerb),
        Split ((Split buffer "\r\n".toList).getD 0 []) [' '] = [m, p, "HTTP/1.1".toList] →
        httpVerbfromString m = some verb →
        (∀ j, 1 ≤ j → j + 1 < (Split buffer "\r\n".toList).length →
          (Split buffer "\r\n".toList)[j]? ≠ some []) →
        ∃ req, handleConnectionParse context buffer = ParseOutcome.parsed req ∧
          req.Body = (Split buffer "\r\n".toList).flatten) := by
  refine ⟨by decide, by decide, by decide, rfl, ?_⟩
  intro hall
  obtain ⟨req, hreq, _⟩ := hall [] "GET / HTTP/1.1\r\nnocolon\r\nx".toList "GET".toList
    "/".toList HttpVerb.GET (by decide) (by decide)
    (by
      intro j h1 h2
      have hlen : (Split "GET / HTTP/1.1\r\nnocolon\r\nx".toList "\r\n".toList).length = 3 := by
        decide
      have hj : j = 1 := by omega
      subst hj
      decide)
  have hp : handleConnectionParse [] "GET / HTTP/1.1\r\nnocolon\r\nx".toList =
      ParseOutcome.panicked "index out of range".toList := rfl
  rw [hp] at hreq
  exact ParseOutcome.noConfusion hreq

/-- C21, amended: for a buffer whose first fragment is a request line
`method path HTTP/1.1` with a known verb, in which no empty fragment stands
strictly between the first and the last fragment and every fragment strictly
between them is a readable header line, the request handed to the router has as
body the concatenation of all fragments, request line and header lines included,
which is the buffer with every `\r\n` taken out. -/
theorem body_without_divider (context : GoMap GoString) (buffer m p : GoString)
    (verb : HttpVerb)
    (hline : Split ((Split buffer "\r\n".toList).getD 0 []) [' '] =
      [m, p, "HTTP/1.1".toList])
    (hverb : httpVerbfromString m = some verb)
    (hnodiv : ∀ j, 1 ≤ j → j + 1 < (Split buffer "\r\n".toList).length →
      (Split buffer "\r\n".toList)[j]? ≠ some [])
    (hwf : ∀ j line, 1 ≤ j → j + 1 < (Split buffer "\r\n".toList).length →
      (Split buffer "\r\n".toList)[j]? = some line → HeaderLineOk line) :
    ∃ req, handleConnectionParse context buffer = ParseOutcome.parsed req ∧
      req.Body = (Split buffer "\r\n".toList).flatten ∧
      req.Body = removeCRLF buffer ∧
      req.method = verb ∧ req.path = p := by
  have hlines : ∀ j, 1 ≤ j → j < (Split buffer "\r\n".toList).length - 1 →
      (Split buffer "\r\n".toList).getD j [] ≠ [] ∧
        ∃ nv, parseHeaderLine ((Split buffer "\r\n".toList).getD j []) = some nv := by
    intro j hj1 hjk
    have hjl : j < (Split buffer "\r\n".toList).length := by omega
    have hget : (Split buffer "\r\n".toList)[j]? =
        some ((Split buffer "\r\n".toList).getD j []) := by
      rw [List.getD_eq_getElem _ _ hjl]
      exact List.getElem?_eq_getElem hjl
    refine ⟨?_, parseHeaderLine_ok _ (hwf j _ hj1 (by omega) hget)⟩
    intro h
    rw [h] at hget
    exact hnodiv j hj1 (by omega) hget
  obtain ⟨hs', hloop⟩ := headersLoop_no_divider (Split buffer "\r\n".toList)
    ((Split buffer "\r\n".toList).length - 1) hlines
    ((Split buffer "\r\n".toList).length - 1) 0 [] (by omega)
  rw [← List.range_eq_range'] at hloop
  have hblen : ¬ buffer.length = 0 := by
    intro h0
    have hnil : buffer = [] := List.length_eq_zero.mp h0
    rw [hnil] at hline
    have h1 : (Split [] "\r\n".toList).getD 0 [] = [] := rfl
    have h2 : Split [] [' '] = [[]] := rfl
    rw [h1, h2] at hline
    have := congrArg List.length hline
    simp at this
  have hne := Split_ne_nil buffer "\r\n".toList
  have hplen : ¬ (Split buffer "\r\n".toList).length = 0 := by
    intro h
    exact hne (List.length_eq_zero.mp h)
  obtain ⟨f, rest, hfr⟩ : ∃ f rest, Split buffer "\r\n".toList = f :: rest := by
    cases hd : Split buffer "\r\n".toList with
    | nil => exact absurd hd hne
    | cons f rest => exact ⟨f, rest, rfl⟩
  have hgt : ((Split buffer "\r\n".toList).length : Int) > (-1 : Int) := by omega
  have htoNat : ((-1 : Int) + 1).toNat = 0 := rfl
  have hparse : handleConnectionParse context buffer = ParseOutcome.parsed
      { method := verb, path := p, Slugs := [], searchParams := [], Headers := hs',
        Body := (Split buffer "\r\n".toList).flatten, Context := context } := by
    unfold handleConnectionParse
    simp only [hblen, hplen, if_false, parseReqLine_of_split _ _ _ _ hline]
    simp only [List.getD_cons_zero, List.getD_cons_succ, ne_eq, not_true_eq_false, if_false,
      hverb, newRequest]
    rw [hloop]
    simp only [hgt, if_true, htoNat, List.drop_zero]
    rw [hfr]
  refine ⟨_, hparse, rfl, ?_, rfl, rfl⟩
  exact flatten_genSplitLoop_crlf buffer.length buffer (le_refl _)

/-- C21, concrete case: a request line, one header line and a last fragment,
with no empty line. -/
theorem body_without_divider_witness :
    ∃ req, handleConnectionParse [] "GET / HTTP/1.1\r\nHost: a\r\nbody".toList =
        ParseOutcome.parsed req ∧
      req.Body = "GET / HTTP/1.1Host: abody".toList ∧
      removeCRLF "GET / HTTP/1.1\r\nHost: a\r\nbody".toList =
        "GET / HTTP/1.1Host: abody".toList ∧
      req.method = HttpVerb.GET ∧ req.path = "/".toList := by
  have hlen : (Split "GET / HTTP/1.1\r\nHost: a\r\nbody".toList "\r\n".toList).length = 3 := by
    decide
  obtain ⟨req, h1, h2, h3, h4, h5⟩ := body_without_divider []
    "GET / HTTP/1.1\r\nHost: a\r\nbody".toList "GET".toList "/".toList HttpVerb.GET
    (by decide) (by decide)
    (by
      intro j hj1 hj2
      have hj : j = 1 := by omega
      subst hj
      decide)
    (by
      intro j line hj1 hj2 hget
      have hj : j = 1 := by omega
      subst hj
      have hl : line = "Host: a".toList := by
        have : (some "Host: a".toList : Option GoString) = some line := hget
        exact (Option.some.inj this).symm
      subst hl
      exact ⟨"Host".toList, ' ', "a".toList, rfl, by decide, by decide⟩)
  exact ⟨req, h1, h2.trans (by decide), by decide, h4, h5⟩

end Exprego
